import Mathlib

/-!
Verification development for the Smart_Home_Agent_FP repository.

The definitions below are a shallow embedding of the Tree-of-Thoughts engine
in `Arch/tot.py` and of the backend helper `core/ha.py`.  External
collaborators (the planner language model and the Home-Assistant HTTP
backend) are modelled as oracles: the planner as a function from the call
index to its (already JSON-parsed) output, the backend as a record of pure
functions that may fail (`Except Unit _` models a raised exception).
Python strings are modelled as Lean strings (processed as `List Char`);
floating-point branch scores are modelled in exact rational arithmetic.
Python's `list.sort` is stable, and is modelled by a stable insertion sort.
-/

namespace SmartHome

/-! ## Character and string utilities shared by `Arch/tot.py` helpers -/

/-- Characters matched by the regex class `[a-z0-9_]` used by `_score_match`. -/
def isWordChar (c : Char) : Bool :=
  ('a' ≤ c && c ≤ 'z') || ('0' ≤ c && c ≤ '9') || c = '_'

/-- Model of Python `str.lower` (adequate for the ASCII data in scope). -/
def lowerStr (s : List Char) : List Char := s.map Char.toLower

/-- Maximal runs of `[a-z0-9_]` characters, i.e. `re.findall(r"[a-z0-9_]+", s)`.
The accumulator holds the current run in reverse. -/
def tokenizeAux : List Char → List Char → List (List Char)
  | [], cur => if cur.isEmpty then [] else [cur.reverse]
  | c :: cs, cur =>
    if isWordChar c then tokenizeAux cs (c :: cur)
    else if cur.isEmpty then tokenizeAux cs [] else cur.reverse :: tokenizeAux cs []

/-- `re.findall(r"[a-z0-9_]+", s.lower())`. -/
def pyFindallWord (s : String) : List (List Char) := tokenizeAux (lowerStr s.toList) []

/-- Contiguous-occurrence test: Python's `p in s` on strings. -/
def containsSeg (p : List Char) : List Char → Bool
  | [] => p.isEmpty
  | c :: cs => p.isPrefixOf (c :: cs) || containsSeg p cs

/-- `pat in s` for Lean strings. -/
def containsStr (s pat : String) : Bool := containsSeg pat.toList s.toList

/-- `_score_match(user_text, text)`: the number of tokens of the lowered user
text (length ≥ 2, with multiplicity) occurring as substrings of the lowered
candidate text. -/
def scoreMatch (userText text : String) : Nat :=
  let t := lowerStr text.toList
  ((pyFindallWord userText).filter (fun p => 2 ≤ p.length && containsSeg p t)).length

/-- `_expected_on_off`'s result values. -/
inductive Polarity
  | on
  | off
deriving DecidableEq, Repr

/-- `_expected_on_off(user_text)`. -/
def expectedOnOff (userText : String) : Option Polarity :=
  let t := lowerStr userText.toList
  if containsSeg ("turn on".toList) t || containsSeg ("switch on".toList) t ||
      containsSeg ("open".toList) t then some .on
  else if containsSeg ("turn off".toList) t || containsSeg ("switch off".toList) t ||
      containsSeg ("close".toList) t then some .off
  else none

/-- The two intents of `_infer_intent`. -/
inductive Intent
  | action
  | status
deriving DecidableEq, Repr

/-- The fixed action-phrase list of `_infer_intent`. -/
def actionTokens : List String :=
  ["turn on", "turn off", "switch on", "switch off", "open", "close", "lock", "unlock",
   "set ", "increase", "decrease", "toggle", "dim", "brighten"]

/-- `_infer_intent(user_text)`. -/
def inferIntent (userText : String) : Intent :=
  let t := lowerStr userText.toList
  if actionTokens.any (fun tok => containsSeg tok.toList t) then .action else .status

/-- The fixed domain list of `_likely_domains`. -/
def domainList : List String :=
  ["light", "switch", "fan", "lock", "cover", "climate", "media_player", "sensor"]

/-- `_likely_domains(user_text, intent)`. -/
def likelyDomains (userText : String) (intent : Intent) : List String :=
  let t := lowerStr userText.toList
  let hits := domainList.filter (fun dom => containsSeg dom.toList t)
  if !hits.isEmpty then hits
  else if intent = .action && (expectedOnOff userText).isSome then ["light", "switch", "fan"]
  else domainList

/-! ## Stable sorting (model of Python's stable `list.sort`) -/

/-- Insert `x` in front of the first element `y` with `before x y`. -/
def insertBefore (before : α → α → Bool) (x : α) : List α → List α
  | [] => [x]
  | y :: ys => if before x y then x :: y :: ys else y :: insertBefore before x ys

/-- Stable insertion sort: an element moves in front of a later element `y`
only when `before x y` holds, so with `before x y := key y ≤ key x` this is
exactly Python's stable descending sort by `key`, and with
`before x y := key x ≤ key y` the stable ascending sort. -/
def stableSortBy (before : α → α → Bool) : List α → List α
  | [] => []
  | x :: xs => insertBefore before x (stableSortBy before xs)

/-! ## The output sanitizer `_sanitize_output` -/

/-- Python whitespace class `\s` (ASCII part). -/
def isPySpace (c : Char) : Bool :=
  c = ' ' || c = '\t' || c = '\n' || c = '\r' || c = Char.ofNat 11 || c = Char.ofNat 12

def thinkOpen : List Char := "<think>".toList
def thinkClose : List Char := "</think>".toList
def fencePat : List Char := "```".toList

/-- Case-insensitive prefix test against an already-lowercase pattern. -/
def isPrefixCI : List Char → List Char → Bool
  | [], _ => true
  | _ :: _, [] => false
  | p :: ps, c :: cs => (p = c.toLower) && isPrefixCI ps cs

/-- Search for the first case-insensitive occurrence of `pat`; return the
suffix just after it. -/
def afterCloseCI (pat : List Char) : List Char → Option (List Char)
  | [] => none
  | c :: cs =>
    if isPrefixCI pat (c :: cs) then some ((c :: cs).drop pat.length)
    else afterCloseCI pat cs

/-- Search for the first (case-sensitive) occurrence of `pat`; return the
suffix just after it. -/
def afterCloseCS (pat : List Char) : List Char → Option (List Char)
  | [] => none
  | c :: cs =>
    if pat.isPrefixOf (c :: cs) then some ((c :: cs).drop pat.length)
    else afterCloseCS pat cs

/-- One left-to-right pass of `re.sub(r"<think>[\s\S]*?</think>", "", s, re.I)`:
at an opening tag, the non-greedy match ends at the nearest closing tag; if no
closing tag follows, no later occurrence can match either, so the rest is kept.
The `Nat` fuel strictly exceeds the number of recursive calls (each call
consumes at least one character), keeping the recursion structural. -/
def removeThinkAux : Nat → List Char → List Char
  | 0, s => s
  | _ + 1, [] => []
  | n + 1, c :: cs =>
    if isPrefixCI thinkOpen (c :: cs) then
      match afterCloseCI thinkClose ((c :: cs).drop thinkOpen.length) with
      | some rest => removeThinkAux n rest
      | none => c :: cs
    else c :: removeThinkAux n cs

def removeThink (s : List Char) : List Char := removeThinkAux s.length s

/-- One pass of `re.sub(r"```[\s\S]*?```", "", s)`, same shape as
`removeThinkAux` but case sensitive. -/
def removeFencesAux : Nat → List Char → List Char
  | 0, s => s
  | _ + 1, [] => []
  | n + 1, c :: cs =>
    if fencePat.isPrefixOf (c :: cs) then
      match afterCloseCS fencePat ((c :: cs).drop fencePat.length) with
      | some rest => removeFencesAux n rest
      | none => c :: cs
    else c :: removeFencesAux n cs

def removeFences (s : List Char) : List Char := removeFencesAux s.length s

/-- `re.sub(r"\s+", " ", s)`: collapse every maximal whitespace run to a single
space.  `prev` records whether the previous character was whitespace. -/
def collapseWSAux : Bool → List Char → List Char
  | _, [] => []
  | prev, c :: cs =>
    if isPySpace c then
      if prev then collapseWSAux true cs else ' ' :: collapseWSAux true cs
    else c :: collapseWSAux false cs

/-- Python `str.strip()`. -/
def stripEnds (s : List Char) : List Char :=
  ((s.dropWhile isPySpace).reverse.dropWhile isPySpace).reverse

/-- `_sanitize_output(text)` from `Arch/tot.py` lines 25-30. -/
def sanitizeOutput (s : String) : String :=
  let l1 := removeThink s.toList
  let l2 := removeFences l1
  ⟨stripEnds (collapseWSAux false l2)⟩

/-! ## Data model of the ToT engine -/

/-- A compact entity record `{"entity_id": ..., "name": ...}`; the empty
string encodes a missing/None field, matching how the Python code only ever
tests these fields for truthiness. -/
structure Entity where
  entity_id : String
  name : String
deriving DecidableEq, Repr

/-- One record of a details observation (`_summarize_details_for_obs`); the
empty `name` encodes Python `None` (missing `friendly_name`). -/
structure DetailObs where
  entity_id : String
  state : String
  name : String
deriving DecidableEq, Repr

/-- The full state detail returned by the backend `get_entities_details`
collaborator (only the fields the engine reads). -/
structure Detail where
  entity_id : String
  state : String
  friendly_name : String
deriving DecidableEq, Repr

/-- The observation dictionaries attached to a branch (`last_obs`). -/
inductive Obs
  | cands (candidates : List Entity) (count : Nat)
  | details (items : List DetailObs) (count : Nat)
  | svcDone (domain service entity_id : String)
  | ask (text : String)
deriving DecidableEq, Repr

/-- A search node (branch) as built by `call_agent`. -/
structure Node where
  transcript : List String
  last_obs : Option Obs
  did_service : Bool
  did_details : Bool
  depth : Nat
deriving DecidableEq, Repr

/-- The root branch: `{"transcript": [], "last_obs": None, "did_service":
False, "did_details": False, "depth": 0}`. -/
def rootNode : Node :=
  { transcript := [], last_obs := none, did_service := false, did_details := false, depth := 0 }

/-- A candidate step as parsed from the planner's JSON (`_extract_json` plus
the per-item validation).  `invalidItem` stands for an item that is not a dict
or has no `"tool"` key; `unknownTool` for a dict with an unrecognised tool
name.  Missing/None/empty string arguments are all encoded as `""`, matching
the code's truthiness tests. -/
inductive PlanItem
  | invalidItem
  | listDomain (domain : String)
  | getDetails (entityIds : List String)
  | svcCall (domain service entityId : String)
  | finish (final : String)
  | askUser (message : String)
  | unknownTool (tool : String)
deriving DecidableEq, Repr

/-- The planner oracle's output for one call, modelled after the raw text has
gone through `_extract_json`: a timeout sentinel, unparseable output, a JSON
object, or a JSON array. -/
inductive PlannerOut
  | timeout
  | noJson
  | obj (item : PlanItem)
  | arr (items : List PlanItem)

/-- The Home-Assistant backend collaborator; `Except.error ()` models a raised
exception (`requests` errors etc.).  The `data` payload of a service call is
forwarded verbatim by the engine and is irrelevant to every claim, so it is
omitted from the oracle. -/
structure Backend where
  listByDomain : String → Except Unit (List Entity)
  getDetails : List String → Except Unit (List Detail)
  serviceCall : String → String → String → Except Unit Unit

/-! ## JSON / repr renderings used in transcripts and scoring

`call_agent` embeds `json.dumps(obs, ensure_ascii=False)` output and f-string
reprs into transcript strings, which later feed `_score_match`.  The renderers
below reproduce those strings for the observation shapes the engine builds
(escaping only quote/backslash/newline, enough for the device names in scope).
A literal brace is written with its `\x7b`/`\x7d` escapes. -/

def jsonEscape (s : String) : String :=
  ⟨s.toList.foldr
    (fun c acc =>
      if c = '\\' || c = '"' then '\\' :: c :: acc
      else if c = '\n' then '\\' :: 'n' :: acc
      else c :: acc) []⟩

def jstr (s : String) : String := "\"" ++ jsonEscape s ++ "\""

def jsonListOf (items : List String) : String :=
  "[" ++ String.intercalate ", " items ++ "]"

def jsonEntity (e : Entity) : String :=
  "\x7b\"entity_id\": " ++ jstr e.entity_id ++ ", \"name\": " ++ jstr e.name ++ "\x7d"

def jsonDetail (d : DetailObs) : String :=
  "\x7b\"entity_id\": " ++ jstr d.entity_id ++ ", \"state\": " ++ jstr d.state ++
    ", \"name\": " ++ (if d.name = "" then "null" else jstr d.name) ++ "\x7d"

def jsonObs : Obs → String
  | .cands cs n =>
    "\x7b\"candidates\": " ++ jsonListOf (cs.map jsonEntity) ++ ", \"count\": " ++ toString n ++ "\x7d"
  | .details ds n =>
    "\x7b\"details\": " ++ jsonListOf (ds.map jsonDetail) ++ ", \"count\": " ++ toString n ++ "\x7d"
  | .svcDone d s e =>
    "\x7b\"service_done\": true, \"domain\": " ++ jstr d ++ ", \"service\": " ++ jstr s ++
      ", \"entity_id\": " ++ jstr e ++ "\x7d"
  | .ask t =>
    "\x7b\"message\": \"ask_user\", \"text\": " ++ jstr t ++ "\x7d"

/-- `json.dumps(node["last_obs"], ...)`: Python `None` dumps as `null`. -/
def jsonObsOpt : Option Obs → String
  | none => "null"
  | some o => jsonObs o

/-- The single-quote character (kept out of string literals). -/
def sq : Char := Char.ofNat 39

/-- Python `repr` of a string (single-quoted; escaping elided since the names
in scope contain no quotes). -/
def pyReprStr (s : String) : String := ⟨sq :: (s.toList ++ [sq])⟩

/-- Python `repr` of a list of strings, as in `f"...({entity_ids})"`. -/
def pyReprStrList (l : List String) : String :=
  "[" ++ String.intercalate ", " (l.map pyReprStr) ++ "]"

/-- Python `str(...)` of an observation dict, used by the fallback's
`"turn_on" in str(obs)` test. -/
def pyReprObs : Obs → String
  | .cands cs n =>
    "\x7b" ++ pyReprStr "candidates" ++ ": [" ++
      String.intercalate ", "
        (cs.map (fun e =>
          "\x7b" ++ pyReprStr "entity_id" ++ ": " ++ pyReprStr e.entity_id ++ ", " ++
            pyReprStr "name" ++ ": " ++ pyReprStr e.name ++ "\x7d")) ++
      "], " ++ pyReprStr "count" ++ ": " ++ toString n ++ "\x7d"
  | .details ds n =>
    "\x7b" ++ pyReprStr "details" ++ ": [" ++
      String.intercalate ", "
        (ds.map (fun d =>
          "\x7b" ++ pyReprStr "entity_id" ++ ": " ++ pyReprStr d.entity_id ++ ", " ++
            pyReprStr "state" ++ ": " ++ pyReprStr d.state ++ ", " ++
            pyReprStr "name" ++ ": " ++ (if d.name = "" then "None" else pyReprStr d.name) ++ "\x7d")) ++
      "], " ++ pyReprStr "count" ++ ": " ++ toString n ++ "\x7d"
  | .svcDone d s e =>
    "\x7b" ++ pyReprStr "service_done" ++ ": True, " ++ pyReprStr "domain" ++ ": " ++ pyReprStr d ++
      ", " ++ pyReprStr "service" ++ ": " ++ pyReprStr s ++ ", " ++ pyReprStr "entity_id" ++ ": " ++
      pyReprStr e ++ "\x7d"
  | .ask t =>
    "\x7b" ++ pyReprStr "message" ++ ": " ++ pyReprStr "ask_user" ++ ", " ++
      pyReprStr "text" ++ ": " ++ pyReprStr t ++ "\x7d"

/-- `str(best.get("last_obs") or {})`. -/
def pyReprObsOpt : Option Obs → String
  | none => "\x7b\x7d"
  | some o => pyReprObs o

/-! ## Entity resolution and observation summaries -/

/-- The text a candidate is matched against: `f"{eid} {name}"`. -/
def candText (c : Entity) : String := c.entity_id ++ " " ++ c.name

/-- `name = e.get("name") or e.get("friendly_name") or eid` for the compact
entity records the backend model produces (no separate `friendly_name` key). -/
def obsEntityName (e : Entity) : String := if e.name = "" then e.entity_id else e.name

/-- `_summarize_entities_for_obs(entities, user_text, top_k)`: rank by
`_score_match`, stable descending, keep the top `topK`, remember the total. -/
def summarizeEntities (entities : List Entity) (userText : String) (topK : Nat) : Obs :=
  let items := entities.map (fun e =>
    (scoreMatch userText (e.entity_id ++ " " ++ obsEntityName e),
     Entity.mk e.entity_id (obsEntityName e)))
  let ranked := stableSortBy (fun a b => decide (b.1 ≤ a.1)) items
  .cands ((ranked.take topK).map (·.2)) entities.length

/-- `_summarize_details_for_obs(details, top_k)`. -/
def summarizeDetails (details : List Detail) (topK : Nat) : Obs :=
  .details ((details.take topK).map (fun d => ⟨d.entity_id, d.state, d.friendly_name⟩))
    details.length

/-- `_best_entity_from_candidates(user_text, candidates)` (`Arch/tot.py`
lines 105-116): rank `(score, eid)` pairs with Python's stable descending
sort, return the top `entity_id` only when its score is strictly positive. -/
def bestEntityFromCandidates (userText : String) (cands : List Entity) : Option String :=
  match cands with
  | [] => none
  | _ =>
    let ranked := cands.map (fun c => (scoreMatch userText (candText c), c.entity_id))
    match stableSortBy (fun a b => decide (b.1 ≤ a.1)) ranked with
    | [] => none
    | (s, e) :: _ => if 0 < s then some e else none

/-! ## Guard and scorer -/

/-- `_finish_guard(intent, did_details, did_service, plan_item)` (`Arch/tot.py`
lines 198-205). -/
def finishGuard (intent : Intent) (didDetails didService : Bool) (item : PlanItem) :
    Option String :=
  match item with
  | .finish _ =>
    if intent = .action && !didService then
      some "For ACTION, you must call service_call_tool before finishing."
    else if intent = .status && !didDetails then
      some "For STATUS, you must call get_entities_details_tool before finishing."
    else none
  | _ => none

/-- `" ".join(node["transcript"])`. -/
def transcriptStr (n : Node) : String := String.intercalate " " n.transcript

/-- Truthiness of `node.get("last_obs", {}).get("candidates")`. -/
def obsHasCandidates : Option Obs → Bool
  | some (.cands cs _) => !cs.isEmpty
  | _ => false

/-- The score terms of `_score_node` accumulated before the candidate bonus
(`Arch/tot.py` lines 208-217), in exact rational arithmetic. -/
def scoreBase (intent : Intent) (n : Node) (userText : String) : ℚ :=
  (1 / 2 : ℚ) * (scoreMatch userText (transcriptStr n ++ " " ++ jsonObsOpt n.last_obs) : ℚ)
    + (if intent = .action && n.did_service then 4 else 0)
    + (if intent = .status && n.did_details then 3 else 0)
    - (1 / 4 : ℚ) * (n.depth : ℚ)

/-- `_score_node(intent, node, user_text)` (lines 207-221), with the source's
partiality: the candidate bonus reads
`node.get("last_obs", {}).get("candidates")`, and because the `"last_obs"`
key is always present, a branch whose observation is Python `None` makes
that second `get` raise `AttributeError` when the intent is `action` (the
`and` short-circuit protects the `status` intent).  The raise is modelled as
`.error ()`. -/
def scoreNodeE (intent : Intent) (n : Node) (userText : String) : Except Unit ℚ :=
  if intent = .action then
    match n.last_obs with
    | none => .error ()
    | some o =>
      .ok (scoreBase intent n userText +
        (if obsHasCandidates (some o) then (3 / 5 : ℚ) else 0))
  else .ok (scoreBase intent n userText)

/-- `scored = [(_score_node(intent, n, user_text), n) for n in candidates_next]`
(line 456): scores are computed eagerly in pool order, and the first raising
branch aborts the whole call. -/
def scoreRound (intent : Intent) (userText : String) :
    List Node → Except Unit (List (ℚ × Node))
  | [] => .ok []
  | n :: rest => do
    let s ← scoreNodeE intent n userText
    let tail ← scoreRound intent userText rest
    .ok ((s, n) :: tail)

/-- Lines 456-458: stable descending sort of the `(score, node)` pairs by
score, then `frontier = [n for _, n in scored[:max(1, beam_size)]]`. -/
def pruneFrontierE (intent : Intent) (userText : String) (beam : Nat) (pool : List Node) :
    Except Unit (List Node) := do
  let scored ← scoreRound intent userText pool
  .ok (((stableSortBy (fun a b => decide (b.1 ≤ a.1)) scored).take (max 1 beam)).map (·.2))

/-! ## The actor: executing one candidate step -/

/-- The child skeleton built at the top of the actor loop (`Arch/tot.py`
lines 321-327): fresh transcript copy, inherited flags, round depth. -/
def freshChild (node : Node) (depth : Nat) : Node :=
  { transcript := node.transcript, last_obs := none,
    did_service := node.did_service, did_details := node.did_details, depth := depth }

/-- The `ask_user` branch (lines 329-335). -/
def execAsk (node : Node) (depth : Nat) (message : String) : Node :=
  let msg := if message = "" then "Which device exactly?" else message
  let c := freshChild node depth
  { c with last_obs := some (.ask msg), transcript := c.transcript ++ ["ASK:" ++ msg] }

/-- The sequential try of likely domains: first domain whose listing is
non-empty, together with its entities.  (The `if d is None` check in the
source is unreachable: the domain strings are never None.) -/
def firstNonEmptyDomain (backend : Backend) : List String → Except Unit (Option (String × List Entity))
  | [] => .ok none
  | d :: ds => do
    let tmp ← backend.listByDomain d
    if tmp.isEmpty then firstNonEmptyDomain backend ds
    else .ok (some (d, tmp))

/-- The `get_entities_by_domain_tool` branch (lines 342-361). -/
def execListDomain (backend : Backend) (userText : String) (intent : Intent)
    (node : Node) (depth : Nat) (domainArg : String) : Except Unit Node := do
  let domainsToTry := if domainArg = "" then likelyDomains userText intent else [domainArg]
  let r ← firstNonEmptyDomain backend domainsToTry
  let (domain, ents) := match r with
    | some (d, es) => (d, es)
    | none => (domainArg, ([] : List Entity))
  let obs := summarizeEntities ents userText 6
  let c := freshChild node depth
  .ok { c with
          last_obs := some obs,
          transcript := c.transcript ++
            ["ACTION:get_entities_by_domain_tool(" ++ pyReprStr domain ++ ")",
             "OBS:" ++ jsonObs obs] }

/-- The `get_entities_details_tool` branch (lines 363-372). -/
def execGetDetails (backend : Backend) (node : Node) (depth : Nat)
    (ids : List String) : Except Unit Node := do
  let det ← backend.getDetails ids
  let obs := summarizeDetails det 3
  let c := freshChild node depth
  .ok { c with
          last_obs := some obs,
          did_details := true,
          transcript := c.transcript ++
            ["ACTION:get_entities_details_tool(" ++ pyReprStrList ids ++ ")",
             "OBS:" ++ jsonObs obs] }

/-- Step 1 of the service branch (lines 377-385): infer a domain from the
likely list when none was provided, recording the listing as the child's
observation. -/
def inferDomainStep (backend : Backend) (userText : String) (intent : Intent)
    (domArg : String) : Except Unit (String × Option Obs) :=
  if domArg = "" then do
    match ← firstNonEmptyDomain backend (likelyDomains userText intent) with
    | some (d, tmp) => .ok (d, some (summarizeEntities tmp userText 6))
    | none => .ok ("", none)
  else .ok (domArg, none)

/-- Truthy candidate list of an observation (`obs.get("candidates")`). -/
def obsCandidates : Option Obs → List Entity
  | some (.cands cs _) => cs
  | _ => []

/-- Step 2a of the service branch (lines 390-403): gather candidates from the
child's observation, else the parent's, else by listing the domain now (which
also updates the child's observation). -/
def gatherCandidates (backend : Backend) (userText : String)
    (nodeObs childObs : Option Obs) (domain : String) :
    Except Unit (Option Obs × List Entity) :=
  if !(obsCandidates childObs).isEmpty then .ok (childObs, obsCandidates childObs)
  else if !(obsCandidates nodeObs).isEmpty then .ok (childObs, obsCandidates nodeObs)
  else do
    let ents ← backend.listByDomain domain
    let obs := summarizeEntities ents userText 6
    .ok (some obs, obsCandidates (some obs))

/-- Step 2b (lines 386-408): keep a requested id only when it is a known
candidate; otherwise fall back to the best textual match.  The empty string
encodes "unresolved" (Python `None` or `""`, both falsy at line 411). -/
def resolveEid (userText : String) (requested : String) (cands : List Entity) : String :=
  if requested = "" || !(cands.map (·.entity_id)).contains requested then
    (bestEntityFromCandidates userText cands).getD ""
  else requested

/-- Step 3 (lines 422-429): infer the service from the on/off polarity when
missing. -/
def resolveService (userText : String) (svcArg : String) : String :=
  if svcArg = "" then
    match expectedOnOff userText with
    | some .on => "turn_on"
    | some .off => "turn_off"
    | none => ""
  else svcArg

/-- The whole `service_call_tool` branch (lines 374-447). -/
def execServiceStep (backend : Backend) (userText : String) (intent : Intent)
    (node : Node) (depth : Nat) (domArg svcArg eidArg : String) : Except Unit Node := do
  let (domain, obs1) ← inferDomainStep backend userText intent domArg
  let c0 := { freshChild node depth with last_obs := obs1 }
  let (obs2, cands) ← gatherCandidates backend userText node.last_obs c0.last_obs domain
  let c1 := { c0 with last_obs := obs2 }
  let resolved := resolveEid userText eidArg cands
  if resolved = "" then do
    let ents ← backend.listByDomain domain
    let obs := summarizeEntities ents userText 6
    .ok { c1 with
            last_obs := some obs,
            transcript := c1.transcript ++
              ["GUARD:entity_id unclear; listing candidates first.",
               "ACTION:get_entities_by_domain_tool(" ++ pyReprStr domain ++ ")",
               "OBS:" ++ jsonObs obs] }
  else
    let service := resolveService userText svcArg
    if domain = "" || service = "" then
      let msg := "Which device and action exactly?"
      .ok { c1 with last_obs := some (.ask msg), transcript := c1.transcript ++ ["ASK:" ++ msg] }
    else do
      let _ ← backend.serviceCall domain service resolved
      let obs : Obs := .svcDone domain service resolved
      .ok { c1 with
              last_obs := some obs,
              did_service := true,
              transcript := c1.transcript ++
                ["ACTION:service_call_tool(" ++ domain ++ "," ++ service ++ "," ++ resolved ++ ")",
                 "OBS:" ++ jsonObs obs] }

/-- Outcome of executing one non-finish candidate: a child branch, or nothing
(an unknown tool is only logged). -/
inductive ExecOut
  | child (c : Node)
  | skip

/-- Execute one guard-passing candidate (the `finish` case is handled by the
caller, which returns from the whole search). -/
def execItem (backend : Backend) (userText : String) (intent : Intent)
    (node : Node) (depth : Nat) : PlanItem → Except Unit ExecOut
  | .askUser msg => .ok (.child (execAsk node depth msg))
  | .listDomain d => (execListDomain backend userText intent node depth d).map .child
  | .getDetails ids => (execGetDetails backend node depth ids).map .child
  | .svcCall d s e => (execServiceStep backend userText intent node depth d s e).map .child
  | _ => .ok .skip

/-! ## The controller: one planning round per live branch -/

/-- `plans` after the timeout/parse handling of `call_agent` lines 277-287. -/
def plansOfOut : PlannerOut → List PlanItem
  | .timeout => [.askUser "Which device exactly?"]
  | .noJson => []
  | .obj it => [it]
  | .arr its => its

/-- The action-priority map of line 313 (unknown tools rank last). -/
def toolPriority : PlanItem → Nat
  | .svcCall .. => 0
  | .getDetails _ => 1
  | .listDomain _ => 2
  | .finish _ => 3
  | .askUser _ => 4
  | _ => 5

/-- The guard-note branch spawned for a rejected `finish` (lines 300-305):
`{**node}` with a fresh extended transcript and the round's depth. -/
def guardChild (node : Node) (depth : Nat) (g : String) : Node :=
  { node with transcript := node.transcript ++ ["GUARD:" ++ g], depth := depth }

/-- `not isinstance(item, dict) or "tool" not in item` (line 293). -/
def isInvalidItem : PlanItem → Bool
  | .invalidItem => true
  | _ => false

/-- The filtering loop of lines 290-307: skip invalid items, de-duplicate
(`seen`), divert guard-rejected finishes into guard-note branches, keep the
rest in order. -/
def filterPlansAux (intent : Intent) (node : Node) (depth : Nat) :
    List PlanItem → List PlanItem → List Node → List PlanItem → List Node × List PlanItem
  | [], _, guardKids, filtered => (guardKids, filtered)
  | it :: rest, seen, guardKids, filtered =>
    if isInvalidItem it then filterPlansAux intent node depth rest seen guardKids filtered
    else if seen.contains it then filterPlansAux intent node depth rest seen guardKids filtered
    else
      match finishGuard intent node.did_details node.did_service it with
      | some g =>
        filterPlansAux intent node depth rest (it :: seen)
          (guardKids ++ [guardChild node depth g]) filtered
      | none =>
        filterPlansAux intent node depth rest (it :: seen) guardKids (filtered ++ [it])

def filterPlans (intent : Intent) (node : Node) (depth : Nat) (plans : List PlanItem)
    (k : Nat) : List Node × List PlanItem :=
  filterPlansAux intent node depth (plans.take k) [] [] []

/-- `final or "Done."` after sanitizing (line 339-340). -/
def finishText (f : String) : String :=
  let t := sanitizeOutput f
  if t = "" then "Done." else t

/-- What processing one node in one round produces: an immediate return from
the whole search (an accepted `finish`, paired with the branch it finished
on), or the children contributed to `candidates_next`. -/
inductive StepOut
  | finished (text : String) (node : Node)
  | kids (children : List Node)
deriving DecidableEq, Repr

/-- The `"final"` payload of a finish step, `none` for every other tool. -/
def finalOf : PlanItem → Option String
  | .finish f => some f
  | _ => none

/-- The actor loop over the sorted, truncated candidate list (lines 317-449).
`acc` carries the children already appended (the guard-note branches). -/
def execFold (backend : Backend) (userText : String) (intent : Intent)
    (node : Node) (depth : Nat) : List PlanItem → List Node → Except Unit StepOut
  | [], acc => .ok (.kids acc)
  | it :: rest, acc =>
    match finalOf it with
    | some f => .ok (.finished (finishText f) node)
    | none => do
      match ← execItem backend userText intent node depth it with
      | .child c => execFold backend userText intent node depth rest (acc ++ [c])
      | .skip => execFold backend userText intent node depth rest acc

/-- Process one frontier node for one round: planner output → plans →
filter/guard → priority sort → actor execution. -/
def processNode (backend : Backend) (userText : String) (intent : Intent) (k : Nat)
    (node : Node) (depth : Nat) (pout : PlannerOut) : Except Unit StepOut :=
  let plans := plansOfOut pout
  if plans.isEmpty then .ok (.kids [])
  else
    let (guardKids, filtered) := filterPlans intent node depth plans k
    if filtered.isEmpty then .ok (.kids guardKids)
    else
      let sortedF := (stableSortBy (fun a b => decide (toolPriority a ≤ toolPriority b)) filtered).take k
      execFold backend userText intent node depth sortedF guardKids

/-- One round of expansion over the whole frontier (the loop at line 267);
the planner oracle is consumed once per node, in frontier order. -/
def doRound (backend : Backend) (planner : Nat → PlannerOut) (userText : String)
    (intent : Intent) (k : Nat) (depth : Nat) :
    List Node → Nat → List Node → Except Unit (Sum (String × Node) (List Node × Nat))
  | [], pc, acc => .ok (.inr (acc, pc))
  | node :: rest, pc, acc => do
    match ← processNode backend userText intent k node depth (planner pc) with
    | .finished t n => .ok (.inl (t, n))
    | .kids cs => doRound backend planner userText intent k depth rest (pc + 1) (acc ++ cs)

/-- The early-finish condition of line 463. -/
def guardSat (intent : Intent) (n : Node) : Bool :=
  (intent = .action && n.did_service) || (intent = .status && n.did_details)

/-- The early FINISH probe over the pruned frontier (lines 462-481): one extra
planner call per guard-satisfying branch; accepted only for a JSON object
`{"tool": "finish", ...}` with a non-empty sanitized final text.  (A planner
timeout yields the `__TIMEOUT__` string, which parses to no JSON.) -/
def probeLoop (planner : Nat → PlannerOut) (intent : Intent) :
    List Node → Nat → Option (String × Node) × Nat
  | [], pc => (none, pc)
  | n :: rest, pc =>
    if guardSat intent n then
      match planner pc with
      | .obj (.finish f) =>
        let t := sanitizeOutput f
        if t = "" then probeLoop planner intent rest (pc + 1) else (some (t, n), pc + 1)
      | _ => probeLoop planner intent rest (pc + 1)
    else probeLoop planner intent rest pc

/-- How the depth loop ended. -/
inductive LoopOut
  | inRound (text : String) (node : Node)
  | probeHit (text : String) (node : Node)
  | exhausted (frontier : List Node)
deriving DecidableEq, Repr

/-- The depth loop of `call_agent` (lines 263-481): expand, return on an
accepted finish, break when no candidates, else prune and probe. -/
def totLoop (backend : Backend) (planner : Nat → PlannerOut) (userText : String)
    (intent : Intent) (beam k : Nat) :
    Nat → Nat → List Node → Nat → Except Unit LoopOut
  | 0, _, frontier, _ => .ok (.exhausted frontier)
  | fuel + 1, depth, frontier, pc =>
    match doRound backend planner userText intent k depth frontier pc [] with
    | .error e => .error e
    | .ok (.inl (t, n)) => .ok (.inRound t n)
    | .ok (.inr (cands, pc1)) =>
      if cands.isEmpty then .ok (.exhausted frontier)
      else
        match pruneFrontierE intent userText beam cands with
        | .error e => .error e
        | .ok newFrontier =>
          match probeLoop planner intent newFrontier pc1 with
          | (some (t, n), _) => .ok (.probeHit t n)
          | (none, pc2) =>
            totLoop backend planner userText intent beam k fuel (depth + 1) newFrontier pc2

/-! ## Fallback answer synthesis (lines 483-500) -/

/-- Python `max(xs, key=k)`: the first element attaining the maximal key. -/
def firstMaxBy [LinearOrder β] (key : α → β) : List α → Option α
  | [] => none
  | x :: xs =>
    match firstMaxBy key xs with
    | none => some x
    | some m => if key m ≤ key x then some x else some m

/-- Python `str.title()` (letter-run capitalisation). -/
def pyTitleAux : Bool → List Char → List Char
  | _, [] => []
  | prevAlpha, c :: cs =>
    if c.isAlpha then (if prevAlpha then c.toLower else c.toUpper) :: pyTitleAux true cs
    else c :: pyTitleAux false cs

def pyTitle (s : String) : String := ⟨pyTitleAux false s.toList⟩

/-- `s.split('.')[-1]`. -/
def splitDotLastAux : List Char → List Char → List Char
  | [], cur => cur.reverse
  | c :: cs, cur => if c = '.' then splitDotLastAux cs [] else splitDotLastAux cs (c :: cur)

def lastDotComponent (s : String) : String := ⟨splitDotLastAux s.toList []⟩

def underscoreToSpace (s : String) : String :=
  ⟨s.toList.map (fun c => if c = '_' then ' ' else c)⟩

/-- The action fallback sentence (lines 488-491). -/
def fbActionText (best : Node) : String :=
  let obs := best.last_obs
  let eid := match obs with
    | some (.svcDone _ _ e) => if e = "" then "Device" else e
    | _ => "Device"
  if containsStr (pyReprObsOpt obs) "turn_on" then
    pyTitle (underscoreToSpace (lastDotComponent (sanitizeOutput eid))) ++ " turned on."
  else "Action completed."

/-- The status fallback sentence (lines 492-499). -/
def fbStatusText (best : Node) : String :=
  let dets := match best.last_obs with
    | some (.details ds _) => ds
    | _ => []
  match dets with
  | [] => "Status read."
  | d0 :: _ =>
    let st : String := ⟨lowerStr d0.state.toList⟩
    let name := if d0.name ≠ "" then d0.name
      else if d0.entity_id ≠ "" then d0.entity_id else "Device"
    if st = "" then "Status read." else name ++ " is " ++ st ++ "."

/-- The final generic clarification (line 500). -/
def notSureText : String := "I’m not sure yet—please specify the device."

/-- The result of a completed `call_agent`, annotated with the return path and
the branch that produced the answer (ghost information; `resultText` erases
it). -/
inductive AgentResult
  | inRound (text : String) (node : Node)
  | probeHit (text : String) (node : Node)
  | fbAction (text : String) (node : Node)
  | fbStatus (text : String) (node : Node)
  | notSure
deriving DecidableEq, Repr

def resultText : AgentResult → String
  | .inRound t _ => t
  | .probeHit t _ => t
  | .fbAction t _ => t
  | .fbStatus t _ => t
  | .notSure => notSureText

/-- `max(frontier, key=...)` with a raising key (line 486): a left-to-right
scan keeping the first element attaining the maximal key, where the key is
computed once for every element in order — including the first — and a raise
aborts the whole call. -/
def pyMaxAux (key : Node → Except Unit ℚ) : Node → ℚ → List Node → Except Unit Node
  | best, _, [] => .ok best
  | best, kbest, y :: ys => do
    let ky ← key y
    if kbest < ky then pyMaxAux key y ky ys else pyMaxAux key best kbest ys

def pyMaxByKey (key : Node → Except Unit ℚ) (x : Node) (xs : List Node) : Except Unit Node := do
  let kx ← key x
  pyMaxAux key x kx xs

/-- The fallback block (lines 485-500): pick the best surviving branch by
`_score_node` and synthesize a deterministic sentence, else the generic
clarification. -/
def fallbackResultE (userText : String) (frontier : List Node) : Except Unit AgentResult :=
  match frontier with
  | [] => .ok .notSure
  | h :: t => do
    let intent := inferIntent userText
    let best ← pyMaxByKey (fun n => scoreNodeE intent n userText) h t
    if intent = .action && best.did_service then .ok (.fbAction (fbActionText best) best)
    else if intent = .status && best.did_details then .ok (.fbStatus (fbStatusText best) best)
    else .ok .notSure

/-- The tunable parameters of `call_agent` (the planner temperature and the
overall timeout hint play no role in the control flow). -/
structure Config where
  beamSize : Nat := 2
  kPerNode : Nat := 3
  maxDepth : Nat := 3
deriving Repr

/-- `call_agent`, annotated: run the depth-bounded beam search from the root
branch and fall back when no branch finished. -/
def callAgentRun (cfg : Config) (planner : Nat → PlannerOut) (backend : Backend)
    (userText : String) : Except Unit AgentResult :=
  match totLoop backend planner userText (inferIntent userText) cfg.beamSize cfg.kPerNode
      cfg.maxDepth 1 [rootNode] 0 with
  | .error e => .error e
  | .ok (.inRound t n) => .ok (.inRound t n)
  | .ok (.probeHit t n) => .ok (.probeHit t n)
  | .ok (.exhausted frontier) => fallbackResultE userText frontier

/-- `call_agent` proper: only the answer string is returned to the caller. -/
def callAgentModel (cfg : Config) (planner : Nat → PlannerOut) (backend : Backend)
    (userText : String) : Except Unit String :=
  (callAgentRun cfg planner backend userText).map resultText

/-! ## `core/ha.py`: `get_entities_by_domain`

The HTTP fetch of `/api/states` is abstracted as the input list of raw
states; the rest of the function (normalisation, filtering, deduplication,
sorting) is pure and embedded below. -/

/-- One raw state as the engine reads it: `entity_id` and the
`friendly_name` attribute (`""` encodes a missing attribute). -/
structure HAState where
  entity_id : String
  friendly_name : String
deriving DecidableEq, Repr

/-- `p` is a prefix of `s` (Python `s.startswith(p)`). -/
def strStartsWith (s p : String) : Bool := p.toList.isPrefixOf s.toList

/-- Python `s.rstrip(".")`. -/
def rstripDots (s : List Char) : List Char := (s.reverse.dropWhile (· = '.')).reverse

/-- `(domain or "").strip().lower().rstrip(".")`. -/
def normalizeDomain (domain : String) : String :=
  ⟨rstripDots (lowerStr (stripEnds domain.toList))⟩

/-- The collection loop of `get_entities_by_domain` (lines 35-48): skip empty
ids, keep wanted domains, take the friendly name (or the id), and
de-duplicate by `entity_id`, keeping first occurrences. -/
def collectEntities (keep : String → Bool) : List HAState → List String → List Entity
  | [], _ => []
  | s :: rest, seen =>
    if s.entity_id = "" then collectEntities keep rest seen
    else if !keep s.entity_id then collectEntities keep rest seen
    else if seen.contains s.entity_id then collectEntities keep rest seen
    else
      { entity_id := s.entity_id,
        name := if s.friendly_name = "" then s.entity_id else s.friendly_name } ::
        collectEntities keep rest (s.entity_id :: seen)

/-- Lexicographic (code-point) order on character lists: Python string `<=`. -/
def charListLe : List Char → List Char → Bool
  | [], _ => true
  | _ :: _, [] => false
  | a :: as, b :: bs => if a = b then charListLe as bs else decide (a < b)

/-- Sort key `item["name"].casefold()` (modelled by lowercasing, adequate for
the ASCII names in scope). -/
def nameKey (e : Entity) : List Char := lowerStr e.name.toList

/-- `primary_rank` of the non-empty-domain sort key (lines 52-55). -/
def haRank (d : String) (e : Entity) : Nat :=
  if strStartsWith e.entity_id (d ++ ".") then 0
  else if strStartsWith e.entity_id "switch." then 1
  else 2

/-- The tuple key `(primary_rank, name.casefold())` compared as Python does. -/
def haKeyLe (d : String) (a b : Entity) : Bool :=
  if haRank d a < haRank d b then true
  else if haRank d b < haRank d a then false
  else charListLe (nameKey a) (nameKey b)

/-- `get_entities_by_domain(domain)` (`core/ha.py` lines 7-60), as a function
of the raw `/api/states` payload. -/
def getEntitiesByDomain (states : List HAState) (domain : String) : List Entity :=
  let d := normalizeDomain domain
  let keep : String → Bool := fun eid =>
    if d = "" then true
    else strStartsWith eid (d ++ ".") || strStartsWith eid "switch."
  let results := collectEntities keep states []
  if d = "" then stableSortBy (fun a b => charListLe (nameKey a) (nameKey b)) results
  else stableSortBy (fun a b => haKeyLe d a b) results

/-- The stable ascending sort by case-folded display name used within each
rank group of `get_entities_by_domain`. -/
def sortByNameCF (es : List Entity) : List Entity :=
  stableSortBy (fun a b => charListLe (nameKey a) (nameKey b)) es

/-- The grouped description of `get_entities_by_domain` for a (normalized)
non-empty domain `d`, transcribed from the claim: the collected entities of
the requested domain sorted case-insensitively by name, followed by the
remaining switch entities likewise sorted. -/
def haGrouped (states : List HAState) (d : String) : List Entity :=
  let kept := collectEntities
    (fun eid => strStartsWith eid (d ++ ".") || strStartsWith eid "switch.") states []
  sortByNameCF (kept.filter (fun e => decide (haRank d e = 0))) ++
    sortByNameCF (kept.filter (fun e => decide (haRank d e = 1)))

/-! ## Definitions written from the specification's wording

These restate spec sentences independently of the source embedding, to be
compared with it. -/

/-- The §4.6 scoring formula, transcribed from the spec:
`0.5·token_overlap + 4.0·[action ∧ did_call_service] + 3.0·[status ∧
did_read_details] − 0.25·depth + 0.6·[action ∧ last observation has entity
candidates]`. -/
def specScoreFormula (intent : Intent) (n : Node) (userText : String) : ℚ :=
  (1 / 2 : ℚ) * (scoreMatch userText (transcriptStr n ++ " " ++ jsonObsOpt n.last_obs) : ℚ)
    + 4 * (if intent = .action ∧ n.did_service = true then 1 else 0)
    + 3 * (if intent = .status ∧ n.did_details = true then 1 else 0)
    - (1 / 4 : ℚ) * (n.depth : ℚ)
    + (3 / 5 : ℚ) * (if intent = .action ∧ obsHasCandidates n.last_obs = true then 1 else 0)

/-- The spec's reading of `best_entity`: the first candidate attaining the
maximal token-overlap score (ties broken by original order), returned only
when that score is strictly positive. -/
def firstBestEntity (userText : String) (cands : List Entity) : Option String :=
  match firstMaxBy (fun c => scoreMatch userText (candText c)) cands with
  | none => none
  | some c => if 0 < scoreMatch userText (candText c) then some c.entity_id else none

/-! ## Concrete oracles and runs used as witnesses and counterexamples -/

/-- A backend with no entities whose service endpoint always raises, so a
completed (non-error) run certifies that no service call was executed. -/
def emptyNoServiceBackend : Backend :=
  { listByDomain := fun _ => .ok [],
    getDetails := fun _ => .ok [],
    serviceCall := fun _ _ _ => .error () }

/-- A backend whose details endpoint always raises. -/
def failingDetailsBackend : Backend :=
  { listByDomain := fun _ => .ok [],
    getDetails := fun _ => .error (),
    serviceCall := fun _ _ _ => .ok () }

/-- A backend exposing the single light `light.kitchen_lights`. -/
def kitchenBackend : Backend :=
  { listByDomain := fun _ => .ok [⟨"light.kitchen_lights", "Kitchen Lights"⟩],
    getDetails := fun _ => .ok [],
    serviceCall := fun _ _ _ => .ok () }

/-- A planner that proposes a concrete service call, then answers every later
(probe) call with a finish object. -/
def kitchenPlanner : Nat → PlannerOut
  | 0 => .arr [.svcCall "light" "turn_on" "light.kitchen_lights"]
  | _ => .obj (.finish "Kitchen Lights turned on.")

/-- The branch the `kitchenPlanner` run finishes on (computed by evaluating
the model). -/
def kitchenNode : Node :=
  { transcript :=
      ["ACTION:service_call_tool(light,turn_on,light.kitchen_lights)",
       "OBS:\x7b\"service_done\": true, \"domain\": \"light\", \"service\": \"turn_on\", \"entity_id\": \"light.kitchen_lights\"\x7d"],
    last_obs := some (.svcDone "light" "turn_on" "light.kitchen_lights"),
    did_service := true,
    did_details := false,
    depth := 1 }

/-- A planner that always times out. -/
def timeoutPlanner : Nat → PlannerOut := fun _ => .timeout

/-- A planner that always proposes one bare service call (no domain, no
service, no entity id). -/
def bareServicePlanner : Nat → PlannerOut := fun _ => .arr [.svcCall "" "" ""]

/-- A planner that always proposes one details read of `lock.front_door`. -/
def frontDoorPlanner : Nat → PlannerOut := fun _ => .arr [.getDetails ["lock.front_door"]]

/-- A branch that has already observed one candidate entity. -/
def candNode : Node :=
  { transcript := [], last_obs := some (.cands [⟨"light.x", "x"⟩] 1),
    did_service := false, did_details := false, depth := 0 }

/-- The input on which `_sanitize_output` is not idempotent: removing the
inner think-block exposes a new one. -/
def nestedThinkInput : String := "<thi<think>x</think>nk>y</think>"

/-! ## Predicates used in the amended sanitizer claim -/

/-- Case-insensitive contiguous occurrence of an (already lowercase)
pattern. -/
def containsSegCI (pat : List Char) : List Char → Bool
  | [] => pat.isEmpty
  | c :: cs => isPrefixCI pat (c :: cs) || containsSegCI pat cs

/-- Whitespace-normal form: every whitespace character is the plain space and
no two spaces are adjacent.  `collapseWSAux` always produces such text. -/
def WSNormal (l : List Char) : Prop :=
  (∀ c ∈ l, isPySpace c = true → c = ' ') ∧
    l.Chain' (fun a b => ¬(a = ' ' ∧ b = ' '))

/-! # Theorems

## Properties of the stable sort -/

theorem insertBefore_perm (before : α → α → Bool) (x : α) (l : List α) :
    List.Perm (insertBefore before x l) (x :: l) := by
  induction l with
  | nil => simp [insertBefore]
  | cons y ys ih =>
    simp only [insertBefore]
    split
    · exact List.Perm.refl _
    · exact (ih.cons y).trans (List.Perm.swap x y ys)

theorem stableSortBy_perm (before : α → α → Bool) (l : List α) :
    List.Perm (stableSortBy before l) l := by
  induction l with
  | nil => simp [stableSortBy]
  | cons x xs ih => exact (insertBefore_perm before x (stableSortBy before xs)).trans (ih.cons x)

theorem mem_stableSortBy (before : α → α → Bool) (l : List α) (a : α) :
    a ∈ stableSortBy before l ↔ a ∈ l :=
  (stableSortBy_perm before l).mem_iff

theorem length_stableSortBy (before : α → α → Bool) (l : List α) :
    (stableSortBy before l).length = l.length :=
  (stableSortBy_perm before l).length_eq

theorem insertBefore_pairwise_key [LinearOrder β] (k : α → β) (x : α) (s : List α)
    (hs : s.Pairwise (fun a b => k b ≤ k a)) :
    (insertBefore (fun a b => decide (k b ≤ k a)) x s).Pairwise (fun a b => k b ≤ k a) := by
  induction s with
  | nil => simp [insertBefore]
  | cons y ys ih =>
    rw [List.pairwise_cons] at hs
    obtain ⟨hy, hys⟩ := hs
    simp only [insertBefore]
    split
    · rename_i hxy
      rw [decide_eq_true_eq] at hxy
      refine List.Pairwise.cons ?_ (List.Pairwise.cons hy hys)
      intro b hb
      rcases List.mem_cons.mp hb with rfl | hb
      · exact hxy
      · exact le_trans (hy b hb) hxy
    · rename_i hxy
      rw [decide_eq_true_eq] at hxy
      push_neg at hxy
      refine List.Pairwise.cons ?_ (ih hys)
      intro b hb
      rw [(insertBefore_perm _ x ys).mem_iff] at hb
      rcases List.mem_cons.mp hb with rfl | hb
      · exact le_of_lt hxy
      · exact hy b hb

theorem stableSortBy_pairwise_key [LinearOrder β] (k : α → β) (l : List α) :
    (stableSortBy (fun a b => decide (k b ≤ k a)) l).Pairwise (fun a b => k b ≤ k a) := by
  induction l with
  | nil => simp [stableSortBy]
  | cons x xs ih => exact insertBefore_pairwise_key k x _ ih

theorem pairwise_take_drop {R : α → α → Prop} {l : List α} (h : l.Pairwise R) (n : Nat) :
    ∀ x ∈ l.take n, ∀ y ∈ l.drop n, R x y := by
  have hsplit : l.take n ++ l.drop n = l := List.take_append_drop n l
  rw [← hsplit, List.pairwise_append] at h
  exact h.2.2

theorem insertBefore_eq_takeWhile (before : α → α → Bool) (x : α) (s : List α) :
    insertBefore before x s =
      s.takeWhile (fun y => !before x y) ++ x :: s.dropWhile (fun y => !before x y) := by
  induction s with
  | nil => simp [insertBefore]
  | cons y ys ih =>
    simp only [insertBefore, List.takeWhile, List.dropWhile]
    by_cases h : before x y
    · simp [h]
    · simp [h, ih]

theorem filter_insertBefore_key [LinearOrder β] (k : α → β) (c : β) (x : α) (s : List α) :
    (insertBefore (fun a b => decide (k b ≤ k a)) x s).filter (fun y => decide (k y = c)) =
      (if k x = c then [x] else []) ++ s.filter (fun y => decide (k y = c)) := by
  have hfs : s.filter (fun y => decide (k y = c)) =
      (s.takeWhile (fun y => !decide (k y ≤ k x))).filter (fun y => decide (k y = c)) ++
        (s.dropWhile (fun y => !decide (k y ≤ k x))).filter (fun y => decide (k y = c)) := by
    conv_lhs => rw [← List.takeWhile_append_dropWhile (p := fun y => !decide (k y ≤ k x)) (l := s)]
    rw [List.filter_append]
  rw [insertBefore_eq_takeWhile, List.filter_append, List.filter_cons]
  by_cases hx : k x = c
  · subst hx
    have htw : (s.takeWhile (fun y => !decide (k y ≤ k x))).filter
        (fun y => decide (k y = k x)) = [] := by
      rw [List.filter_eq_nil_iff]
      intro a ha
      have h1 := List.mem_takeWhile_imp ha
      simp only [Bool.not_eq_true', decide_eq_false_iff_not] at h1
      simp only [decide_eq_true_eq]
      intro hac
      exact h1 (le_of_eq hac)
    rw [hfs, htw]
    simp
  · rw [hfs]
    simp [hx]

theorem filter_stableSortBy_key [LinearOrder β] (k : α → β) (c : β) (l : List α) :
    (stableSortBy (fun a b => decide (k b ≤ k a)) l).filter (fun y => decide (k y = c)) =
      l.filter (fun y => decide (k y = c)) := by
  induction l with
  | nil => simp [stableSortBy]
  | cons x xs ih =>
    simp only [stableSortBy]
    rw [filter_insertBefore_key, ih, List.filter_cons]
    by_cases hx : k x = c <;> simp [hx]

theorem head?_stableSortBy_key [LinearOrder β] (k : α → β) (l : List α) :
    (stableSortBy (fun a b => decide (k b ≤ k a)) l).head? = firstMaxBy k l := by
  induction l with
  | nil => simp [stableSortBy, firstMaxBy]
  | cons x xs ih =>
    simp only [stableSortBy, firstMaxBy]
    cases hs : stableSortBy (fun a b => decide (k b ≤ k a)) xs with
    | nil =>
      rw [hs] at ih
      simp only [List.head?] at ih
      rw [← ih]
      simp [insertBefore]
    | cons h t =>
      rw [hs] at ih
      simp only [List.head?] at ih
      rw [← ih]
      simp only [insertBefore]
      by_cases hle : k h ≤ k x
      · simp [hle]
      · simp [hle]

theorem firstMaxBy_isSome [LinearOrder β] (k : α → β) (l : List α) (hl : l ≠ []) :
    (firstMaxBy k l).isSome := by
  cases l with
  | nil => exact absurd rfl hl
  | cons x xs =>
    simp only [firstMaxBy]
    cases firstMaxBy k xs with
    | none => simp
    | some m => by_cases h : k m ≤ k x <;> simp [h]

theorem firstMaxBy_mem [LinearOrder β] (k : α → β) :
    ∀ (l : List α) (m : α), firstMaxBy k l = some m → m ∈ l := by
  intro l
  induction l with
  | nil => intro m h; simp [firstMaxBy] at h
  | cons x xs ih =>
    intro m h
    simp only [firstMaxBy] at h
    cases hxs : firstMaxBy k xs with
    | none =>
      rw [hxs] at h
      injection h with h
      subst h
      exact List.mem_cons_self x xs
    | some m' =>
      rw [hxs] at h
      have h2 : (if k m' ≤ k x then some x else some m') = some m := h
      by_cases hle : k m' ≤ k x
      · rw [if_pos hle] at h2
        injection h2 with h2
        subst h2
        exact List.mem_cons_self _ _
      · rw [if_neg hle] at h2
        injection h2 with h2
        subst h2
        exact List.mem_cons_of_mem x (ih m' hxs)

theorem firstMaxBy_le [LinearOrder β] (k : α → β) :
    ∀ (l : List α) (m : α), firstMaxBy k l = some m → ∀ a ∈ l, k a ≤ k m := by
  intro l
  induction l with
  | nil => intro m h; simp [firstMaxBy] at h
  | cons x xs ih =>
    intro m h a ha
    simp only [firstMaxBy] at h
    cases hxs : firstMaxBy k xs with
    | none =>
      rw [hxs] at h
      injection h with h
      subst h
      have hnil : xs = [] := by
        cases xs with
        | nil => rfl
        | cons y ys =>
          exfalso
          have hsome := firstMaxBy_isSome k (y :: ys) (by simp)
          rw [hxs] at hsome
          simp at hsome
      subst hnil
      rcases List.mem_cons.mp ha with rfl | ha
      · exact le_refl _
      · simp at ha
    | some m' =>
      rw [hxs] at h
      have h2 : (if k m' ≤ k x then some x else some m') = some m := h
      by_cases hle : k m' ≤ k x
      · rw [if_pos hle] at h2
        injection h2 with h2
        subst h2
        rcases List.mem_cons.mp ha with rfl | ha
        · exact le_refl _
        · exact le_trans (ih m' hxs a ha) hle
      · rw [if_neg hle] at h2
        injection h2 with h2
        subst h2
        rcases List.mem_cons.mp ha with rfl | ha
        · exact le_of_not_le hle
        · exact ih m' hxs a ha

theorem firstMaxBy_map [LinearOrder β] (k : α → β) (f : γ → α) (l : List γ) :
    firstMaxBy k (l.map f) = (firstMaxBy (fun a => k (f a)) l).map f := by
  induction l with
  | nil => simp [firstMaxBy]
  | cons x xs ih =>
    simp only [List.map, firstMaxBy, ih]
    cases firstMaxBy (fun a => k (f a)) xs with
    | none => simp
    | some m => by_cases h : k (f m) ≤ k (f x) <;> simp [h]

/-! ## Sanitizer lemmas -/

theorem removeThinkAux_id : ∀ (n : Nat) (t : List Char),
    containsSegCI thinkOpen t = false → removeThinkAux n t = t := by
  intro n
  induction n with
  | zero => intro t _; rfl
  | succ n ih =>
    intro t h
    cases t with
    | nil => rfl
    | cons c cs =>
      simp only [containsSegCI, Bool.or_eq_false_iff] at h
      simp only [removeThinkAux, h.1, Bool.false_eq_true, if_false]
      rw [ih cs h.2]

theorem removeThink_id (t : List Char) (h : containsSegCI thinkOpen t = false) :
    removeThink t = t := removeThinkAux_id t.length t h

theorem removeFencesAux_id : ∀ (n : Nat) (t : List Char),
    containsSeg fencePat t = false → removeFencesAux n t = t := by
  intro n
  induction n with
  | zero => intro t _; rfl
  | succ n ih =>
    intro t h
    cases t with
    | nil => rfl
    | cons c cs =>
      simp only [containsSeg, Bool.or_eq_false_iff] at h
      simp only [removeFencesAux, h.1, Bool.false_eq_true, if_false]
      rw [ih cs h.2]

theorem removeFences_id (t : List Char) (h : containsSeg fencePat t = false) :
    removeFences t = t := removeFencesAux_id t.length t h

theorem collapseWSAux_true_head : ∀ (l : List Char) (c : Char),
    (collapseWSAux true l).head? = some c → isPySpace c = false := by
  intro l
  induction l with
  | nil => intro c h; simp [collapseWSAux] at h
  | cons x xs ih =>
    intro c h
    simp only [collapseWSAux] at h
    by_cases hx : isPySpace x
    · rw [if_pos hx, if_pos trivial] at h
      exact ih c h
    · rw [if_neg hx] at h
      simp only [List.head?_cons, Option.some.injEq] at h
      subst h
      simpa using hx

theorem wsNormal_nil : WSNormal [] := ⟨by simp, by simp⟩

theorem wsNormal_collapseWSAux : ∀ (l : List Char) (b : Bool),
    WSNormal (collapseWSAux b l) := by
  intro l
  induction l with
  | nil => intro b; exact wsNormal_nil
  | cons c cs ih =>
    intro b
    simp only [collapseWSAux]
    by_cases hc : isPySpace c
    · rw [if_pos hc]
      by_cases hb : b = true
      · rw [if_pos hb]; exact ih true
      · rw [if_neg hb]
        refine ⟨?_, ?_⟩
        · intro d hd hdsp
          rcases List.mem_cons.mp hd with rfl | hd
          · rfl
          · exact (ih true).1 d hd hdsp
        · rw [List.chain'_cons']
          refine ⟨?_, (ih true).2⟩
          intro y hy
          have hyne := collapseWSAux_true_head cs y hy
          intro hcon
          rw [hcon.2] at hyne
          simp [isPySpace] at hyne
    · rw [if_neg hc]
      have hcne : c ≠ ' ' := by
        intro hceq
        rw [hceq] at hc
        simp [isPySpace] at hc
      refine ⟨?_, ?_⟩
      · intro d hd hdsp
        rcases List.mem_cons.mp hd with rfl | hd
        · exact absurd hdsp (by simpa using hc)
        · exact (ih false).1 d hd hdsp
      · rw [List.chain'_cons']
        exact ⟨fun y _ hcon => hcne hcon.1, (ih false).2⟩

theorem collapseWSAux_eq_self : ∀ (l : List Char), WSNormal l →
    ∀ b : Bool, (b = true → l.head? ≠ some ' ') → collapseWSAux b l = l := by
  intro l
  induction l with
  | nil => intro _ b _; rfl
  | cons c cs ih =>
    intro h b hb
    have hcs : WSNormal cs :=
      ⟨fun d hd => h.1 d (List.mem_cons_of_mem c hd), h.2.tail⟩
    simp only [collapseWSAux]
    by_cases hc : isPySpace c
    · have hceq : c = ' ' := h.1 c (List.mem_cons_self c cs) hc
      have hbf : b = false := by
        cases b with
        | false => rfl
        | true => exact absurd (by simp [hceq]) (hb rfl)
      subst hbf
      rw [if_pos hc, if_neg (by simp), hceq]
      congr 1
      refine ih hcs true (fun _ hhd => ?_)
      cases cs with
      | nil => simp at hhd
      | cons d ds =>
        simp only [List.head?_cons, Option.some.injEq] at hhd
        have := (List.chain'_cons'.mp h.2).1 d rfl
        exact this ⟨hceq, hhd⟩
    · rw [if_neg hc]
      congr 1
      exact ih hcs false (by simp)

theorem wsNormal_dropWhile (l : List Char) (h : WSNormal l) :
    WSNormal (l.dropWhile isPySpace) := by
  cases l with
  | nil => simpa using h
  | cons c cs =>
    have hcs : WSNormal cs :=
      ⟨fun d hd => h.1 d (List.mem_cons_of_mem c hd), h.2.tail⟩
    by_cases hc : isPySpace c
    · rw [List.dropWhile_cons, if_pos hc]
      have hceq : c = ' ' := h.1 c (List.mem_cons_self c cs) hc
      cases cs with
      | nil => simpa [List.dropWhile] using wsNormal_nil
      | cons d ds =>
        have hd : d ≠ ' ' := by
          intro hdeq
          exact (List.chain'_cons'.mp h.2).1 d rfl ⟨hceq, hdeq⟩
        have hdsp : isPySpace d = false := by
          cases hdsp : isPySpace d with
          | false => rfl
          | true => exact absurd (hcs.1 d (List.mem_cons_self d ds) hdsp) hd
        rw [List.dropWhile_cons, if_neg (by simp [hdsp])]
        exact hcs
    · rw [List.dropWhile_cons, if_neg hc]
      exact h

theorem wsNormal_reverse (l : List Char) (h : WSNormal l) : WSNormal l.reverse := by
  refine ⟨fun c hc => h.1 c (List.mem_reverse.mp hc), ?_⟩
  rw [List.chain'_reverse]
  exact h.2.imp (fun a b hab hba => hab ⟨hba.2, hba.1⟩)

theorem wsNormal_stripEnds (l : List Char) (h : WSNormal l) : WSNormal (stripEnds l) :=
  wsNormal_reverse _ (wsNormal_dropWhile _ (wsNormal_reverse _ (wsNormal_dropWhile _ h)))

theorem dropWhile_head_false (p : α → Bool) : ∀ (l : List α) (c : α) (cs : List α),
    l.dropWhile p = c :: cs → p c = false := by
  intro l
  induction l with
  | nil => intro c cs h; simp [List.dropWhile] at h
  | cons x xs ih =>
    intro c cs h
    rw [List.dropWhile_cons] at h
    by_cases hx : p x
    · rw [if_pos hx] at h; exact ih c cs h
    · rw [if_neg hx] at h
      injection h with h1 _
      subst h1
      simpa using hx

theorem dropWhile_dropWhile (p : α → Bool) (l : List α) :
    (l.dropWhile p).dropWhile p = l.dropWhile p := by
  cases h : l.dropWhile p with
  | nil => simp
  | cons c cs =>
    rw [List.dropWhile_cons, if_neg (by simp [dropWhile_head_false p l c cs h])]

theorem stripEnds_stripEnds (l : List Char) : stripEnds (stripEnds l) = stripEnds l := by
  unfold stripEnds
  have hqm : ∃ t, ((l.dropWhile isPySpace).reverse.dropWhile isPySpace).reverse ++ t =
      l.dropWhile isPySpace := by
    obtain ⟨t, ht⟩ := List.dropWhile_suffix (l := (l.dropWhile isPySpace).reverse) isPySpace
    refine ⟨t.reverse, ?_⟩
    have h2 := congrArg List.reverse ht
    simpa using h2
  have hdrop : (((l.dropWhile isPySpace).reverse.dropWhile isPySpace).reverse).dropWhile isPySpace
      = ((l.dropWhile isPySpace).reverse.dropWhile isPySpace).reverse := by
    cases hr : ((l.dropWhile isPySpace).reverse.dropWhile isPySpace).reverse with
    | nil => simp
    | cons c cs =>
      obtain ⟨t, ht⟩ := hqm
      rw [hr] at ht
      have hcm : ((l.dropWhile isPySpace).dropWhile isPySpace) = c :: (cs ++ t) := by
        rw [dropWhile_dropWhile, ← ht]
        simp
      have hfc := dropWhile_head_false isPySpace (l.dropWhile isPySpace) c (cs ++ t) hcm
      rw [List.dropWhile_cons, if_neg (by simp [hfc])]
  rw [hdrop, List.reverse_reverse, dropWhile_dropWhile]

theorem stripEnds_collapse_idem (u : List Char) :
    stripEnds (collapseWSAux false (stripEnds (collapseWSAux false u))) =
      stripEnds (collapseWSAux false u) := by
  have hP : WSNormal (collapseWSAux false u) := wsNormal_collapseWSAux u false
  have hPt : WSNormal (stripEnds (collapseWSAux false u)) := wsNormal_stripEnds _ hP
  rw [collapseWSAux_eq_self _ hPt false (by simp)]
  exact stripEnds_stripEnds _

/-! ## C8 — sanitizer idempotence -/

/-- C8 counterexample: `_sanitize_output` is not idempotent.  On
`"<thi<think>x</think>nk>y</think>"` the first pass removes the inner
think-block and thereby exposes a new one, so a second pass changes the
result again. -/
theorem sanitizer_not_idempotent_counterexample :
    sanitizeOutput (sanitizeOutput nestedThinkInput) ≠ sanitizeOutput nestedThinkInput := by
  decide

/-- C8 (amended): applying `_sanitize_output` twice agrees with applying it
once on every input whose sanitized form contains no case-insensitive
`"<think>"` and no triple-backtick fence opener; in general removing an inner
think-block can expose a new one and a second pass differs. -/
theorem sanitizer_idempotent_on_clean (s : String)
    (hthink : containsSegCI thinkOpen (sanitizeOutput s).toList = false)
    (hfence : containsSeg fencePat (sanitizeOutput s).toList = false) :
    sanitizeOutput (sanitizeOutput s) = sanitizeOutput s := by
  have h1 : sanitizeOutput (sanitizeOutput s) =
      ⟨stripEnds (collapseWSAux false (removeFences (removeThink (sanitizeOutput s).toList)))⟩ :=
    rfl
  rw [h1, removeThink_id _ hthink, removeFences_id _ hfence]
  show (⟨stripEnds (collapseWSAux false
      (stripEnds (collapseWSAux false (removeFences (removeThink s.toList)))))⟩ : String) =
    sanitizeOutput s
  rw [stripEnds_collapse_idem]
  rfl

/-- Witness for the amended C8 theorem at a concrete already-clean input. -/
theorem sanitizer_idempotent_on_clean_witness :
    containsSegCI thinkOpen (sanitizeOutput "  hello   world ").toList = false ∧
    containsSeg fencePat (sanitizeOutput "  hello   world ").toList = false ∧
    sanitizeOutput (sanitizeOutput "  hello   world ") = sanitizeOutput "  hello   world " :=
  ⟨by decide, by decide, sanitizer_idempotent_on_clean _ (by decide) (by decide)⟩

/-! ## C5 — beam pruning -/

/-- C5 counterexample: with `beam_size = 0` the pruning step
`scored[:max(1, beam_size)]` still retains one branch, so the retained
frontier size exceeds the configured beam width. -/
theorem beam_prune_counterexample :
    pruneFrontierE .action "turn on the light" 0 [candNode] = .ok [candNode] ∧
      ¬([candNode].length ≤ 0) := by
  exact ⟨rfl, by decide⟩

/-- C5 (amended): whenever the pool scores without raising, the retained
frontier is the top `max 1 beam_size` scored branches — so its size never
exceeds `max 1 beam_size` (hence never exceeds `beam_size` whenever
`beam_size ≥ 1`), and every retained pair's score is ≥ every discarded
pair's score from the same round. -/
theorem beam_prune_amended (intent : Intent) (u : String) (beam : Nat) (pool : List Node)
    (scored : List (ℚ × Node)) (hsc : scoreRound intent u pool = .ok scored) :
    pruneFrontierE intent u beam pool =
      .ok (((stableSortBy (fun a b => decide (b.1 ≤ a.1)) scored).take (max 1 beam)).map
        (·.2)) ∧
    (((stableSortBy (fun a b => decide (b.1 ≤ a.1)) scored).take (max 1 beam)).map
        (·.2)).length ≤ max 1 beam ∧
    ∀ x ∈ (stableSortBy (fun a b => decide (b.1 ≤ a.1)) scored).take (max 1 beam),
      ∀ y ∈ (stableSortBy (fun a b => decide (b.1 ≤ a.1)) scored).drop (max 1 beam),
        y.1 ≤ x.1 := by
  refine ⟨?_, ?_, ?_⟩
  · simp only [pruneFrontierE, bind, Except.bind, hsc]
  · simpa using
      List.length_take_le (max 1 beam) (stableSortBy (fun a b => decide (b.1 ≤ a.1)) scored)
  · intro x hx y hy
    exact pairwise_take_drop
      (stableSortBy_pairwise_key (fun p : ℚ × Node => p.1) scored) _ x hx y hy

/-! ## C6 — the branch scoring formula -/

/-- C6 counterexample: `_score_node` does not always produce the formula.
For an `action` intent and a branch whose last observation is Python `None`
(such as the root branch), the candidate-bonus line reads
`node.get("last_obs", ...).get("candidates")`; the first `get` returns the
stored `None` rather than the default, so the second `get` raises
`AttributeError` and no score exists at all for that branch. -/
theorem score_formula_counterexample :
    rootNode.last_obs = none ∧
    scoreNodeE .action rootNode "turn on the light" = .error () := ⟨rfl, rfl⟩

/-- C6 (amended): on every branch where `_score_node` returns (intent
`status`, or intent `action` with a present last observation) the score is
exactly the §4.6 formula in exact rational arithmetic, a pure function of
its inputs; and the ranking sort used for pruning is stable: `(score, node)`
pairs with equal scores keep their original pool order. -/
theorem score_formula_amended :
    (∀ (intent : Intent) (n : Node) (u : String), (intent = .action → n.last_obs ≠ none) →
      scoreNodeE intent n u = .ok (specScoreFormula intent n u)) ∧
    (∀ (scored : List (ℚ × Node)) (c : ℚ),
      (stableSortBy (fun a b => decide (b.1 ≤ a.1)) scored).filter
          (fun p => decide (p.1 = c)) =
        scored.filter (fun p => decide (p.1 = c))) := by
  constructor
  · intro intent n u hobs
    cases intent with
    | status =>
      show Except.ok (scoreBase .status n u) = _
      simp only [Except.ok.injEq]
      unfold scoreBase specScoreFormula
      cases hds : n.did_service <;> cases hdd : n.did_details <;>
          cases hoc : obsHasCandidates n.last_obs <;>
        norm_num <;> decide
    | action =>
      obtain ⟨o, ho⟩ := Option.ne_none_iff_exists'.mp (hobs rfl)
      have h1 : scoreNodeE .action n u =
          match n.last_obs with
          | none => .error ()
          | some o =>
            .ok (scoreBase .action n u + (if obsHasCandidates (some o) then (3 / 5 : ℚ)
              else 0)) := by
        simp [scoreNodeE]
      rw [h1, ho]
      simp only [Except.ok.injEq]
      unfold scoreBase specScoreFormula
      rw [ho]
      cases hds : n.did_service <;> cases hdd : n.did_details <;>
          cases hoc : obsHasCandidates (some o) <;>
        norm_num
  · intro scored c
    exact filter_stableSortBy_key (fun p : ℚ × Node => p.1) c scored

/-! ## C7 — resolver determinism and null-on-no-overlap -/

theorem bestEntity_cons (u : String) (c0 : Entity) (cs : List Entity) :
    bestEntityFromCandidates u (c0 :: cs) =
      (match stableSortBy (fun a b => decide (b.1 ≤ a.1))
          ((c0 :: cs).map (fun c => (scoreMatch u (candText c), c.entity_id))) with
      | [] => none
      | (s, e) :: _ => if 0 < s then some e else none) := rfl

theorem firstBest_of_firstMax (u : String) (cands : List Entity) (m : Entity)
    (hfm : firstMaxBy (fun c => scoreMatch u (candText c)) cands = some m) :
    firstBestEntity u cands =
      (if 0 < scoreMatch u (candText m) then some m.entity_id else none) := by
  unfold firstBestEntity
  rw [hfm]

theorem bestEntity_eq_firstBest (u : String) (cands : List Entity) :
    bestEntityFromCandidates u cands = firstBestEntity u cands := by
  cases cands with
  | nil => rfl
  | cons c0 cs =>
    have hhead := head?_stableSortBy_key (fun p : Nat × String => p.1)
      ((c0 :: cs).map (fun c => (scoreMatch u (candText c), c.entity_id)))
    rw [firstMaxBy_map] at hhead
    have hsome := firstMaxBy_isSome (fun c => scoreMatch u (candText c)) (c0 :: cs) (by simp)
    cases hfm : firstMaxBy (fun c => scoreMatch u (candText c)) (c0 :: cs) with
    | none => rw [hfm] at hsome; simp at hsome
    | some m =>
      have hfm2 : firstMaxBy
          (fun a => ((fun c => (scoreMatch u (candText c), c.entity_id)) a).1) (c0 :: cs) =
          some m := hfm
      rw [hfm2] at hhead
      simp only [Option.map_some'] at hhead
      obtain ⟨rest, hs⟩ : ∃ rest, stableSortBy (fun a b => decide (b.1 ≤ a.1))
          ((c0 :: cs).map (fun c => (scoreMatch u (candText c), c.entity_id))) =
          (scoreMatch u (candText m), m.entity_id) :: rest := by
        cases hs0 : stableSortBy (fun a b => decide (b.1 ≤ a.1))
            ((c0 :: cs).map (fun c => (scoreMatch u (candText c), c.entity_id))) with
        | nil => rw [hs0] at hhead; simp at hhead
        | cons p r =>
          rw [hs0] at hhead
          simp only [List.head?_cons, Option.some.injEq] at hhead
          exact ⟨r, by rw [hhead]⟩
      rw [bestEntity_cons, hs, firstBest_of_firstMax u (c0 :: cs) m hfm]

/-- C7: `_best_entity_from_candidates` is a deterministic pure function that
ranks candidates by the token-overlap score of the query against
`entity_id ++ " " ++ name`, breaks ties by the candidates' original order,
and returns the top candidate's `entity_id` only if its score is strictly
positive; it returns `none` exactly when no candidate has any query token of
length ≥ 2 occurring in its text. -/
theorem resolver_deterministic_and_null :
    (∀ (u : String) (cands : List Entity),
      bestEntityFromCandidates u cands = firstBestEntity u cands) ∧
    (∀ (u : String) (cands : List Entity),
      bestEntityFromCandidates u cands = none ↔
        ∀ c ∈ cands, scoreMatch u (candText c) = 0) := by
  refine ⟨bestEntity_eq_firstBest, ?_⟩
  intro u cands
  rw [bestEntity_eq_firstBest]
  unfold firstBestEntity
  cases hfm : firstMaxBy (fun c => scoreMatch u (candText c)) cands with
  | none =>
    have hnil : cands = [] := by
      cases cands with
      | nil => rfl
      | cons a as =>
        have := firstMaxBy_isSome (fun c => scoreMatch u (candText c)) (a :: as) (by simp)
        rw [hfm] at this
        simp at this
    subst hnil
    simp
  | some m =>
    have h2 : (match some m with
        | none => none
        | some c => if 0 < scoreMatch u (candText c) then some c.entity_id else none) =
        (if 0 < scoreMatch u (candText m) then some m.entity_id else none) := rfl
    rw [h2]
    by_cases hpos : 0 < scoreMatch u (candText m)
    · rw [if_pos hpos]
      constructor
      · intro h; simp at h
      · intro hall
        have := hall m (firstMaxBy_mem _ cands m hfm)
        omega
    · rw [if_neg hpos]
      constructor
      · intro _ c hc
        have := firstMaxBy_le (fun c => scoreMatch u (candText c)) cands m hfm c hc
        simp only at this
        omega
      · intro _; rfl

/-! ## Plumbing lemmas for the oracle monad -/

theorem exceptBind_ok (y : α) (f : α → Except Unit β) :
    (Except.ok y >>= f : Except Unit β) = f y := rfl

theorem exceptBind_err (f : α → Except Unit β) :
    ((Except.error () : Except Unit α) >>= f) = .error () := rfl

theorem exceptMap_eq_ok (f : α → β) (x : Except Unit α) (y : β)
    (h : x.map f = .ok y) : ∃ a, x = .ok a ∧ y = f a := by
  cases x with
  | error e => simp [Except.map] at h
  | ok a =>
    refine ⟨a, rfl, ?_⟩
    simp only [Except.map, Except.ok.injEq] at h
    exact h.symm

/-! ## C9 — transcripts are extended by copy -/

theorem execAsk_transcript (node : Node) (depth : Nat) (msg : String) :
    node.transcript <+: (execAsk node depth msg).transcript :=
  List.prefix_append _ _

theorem guardChild_transcript (node : Node) (depth : Nat) (g : String) :
    node.transcript <+: (guardChild node depth g).transcript :=
  List.prefix_append _ _

theorem execListDomain_transcript (backend : Backend) (u : String) (intent : Intent)
    (node : Node) (depth : Nat) (d : String) (c : Node)
    (h : execListDomain backend u intent node depth d = .ok c) :
    node.transcript <+: c.transcript := by
  unfold execListDomain at h
  simp only [bind, Except.bind] at h
  repeat' split at h
  all_goals try simp at h
  all_goals rw [← h]
  all_goals exact List.prefix_append _ _

theorem execGetDetails_transcript (backend : Backend) (node : Node) (depth : Nat)
    (ids : List String) (c : Node)
    (h : execGetDetails backend node depth ids = .ok c) :
    node.transcript <+: c.transcript := by
  unfold execGetDetails at h
  simp only [bind, Except.bind] at h
  repeat' split at h
  all_goals try simp at h
  all_goals rw [← h]
  all_goals exact List.prefix_append _ _

theorem execServiceStep_transcript (backend : Backend) (u : String) (intent : Intent)
    (node : Node) (depth : Nat) (dArg sArg eArg : String) (c : Node)
    (h : execServiceStep backend u intent node depth dArg sArg eArg = .ok c) :
    node.transcript <+: c.transcript := by
  unfold execServiceStep at h
  simp only [bind, Except.bind] at h
  repeat' split at h
  all_goals try simp at h
  all_goals rw [← h]
  all_goals exact List.prefix_append _ _

theorem execItem_child_transcript (backend : Backend) (u : String) (intent : Intent)
    (node : Node) (depth : Nat) (it : PlanItem) (c : Node)
    (h : execItem backend u intent node depth it = .ok (.child c)) :
    node.transcript <+: c.transcript := by
  cases it with
  | askUser msg =>
    simp only [execItem, Except.ok.injEq, ExecOut.child.injEq] at h
    rw [← h]
    exact execAsk_transcript node depth msg
  | listDomain d =>
    obtain ⟨a, ha, hc⟩ := exceptMap_eq_ok _ _ _ h
    injection hc with hc
    subst hc
    exact execListDomain_transcript _ _ _ _ _ _ _ ha
  | getDetails ids =>
    obtain ⟨a, ha, hc⟩ := exceptMap_eq_ok _ _ _ h
    injection hc with hc
    subst hc
    exact execGetDetails_transcript _ _ _ _ _ ha
  | svcCall d s e =>
    obtain ⟨a, ha, hc⟩ := exceptMap_eq_ok _ _ _ h
    injection hc with hc
    subst hc
    exact execServiceStep_transcript _ _ _ _ _ _ _ _ _ ha
  | finish f => simp [execItem] at h
  | invalidItem => simp [execItem] at h
  | unknownTool t => simp [execItem] at h

theorem filterPlansAux_guardKids_transcript (intent : Intent) (node : Node) (depth : Nat) :
    ∀ (plans seen : List PlanItem) (gk : List Node) (fl : List PlanItem),
      (∀ n ∈ gk, node.transcript <+: n.transcript) →
      ∀ n ∈ (filterPlansAux intent node depth plans seen gk fl).1,
        node.transcript <+: n.transcript := by
  intro plans
  induction plans with
  | nil =>
    intro seen gk fl hgk n hn
    exact hgk n hn
  | cons it rest ih =>
    intro seen gk fl hgk n hn
    simp only [filterPlansAux] at hn
    by_cases h1 : isInvalidItem it = true
    · rw [if_pos h1] at hn
      exact ih seen gk fl hgk n hn
    · rw [if_neg h1] at hn
      by_cases h2 : seen.contains it = true
      · rw [if_pos h2] at hn
        exact ih seen gk fl hgk n hn
      · rw [if_neg h2] at hn
        cases hg : finishGuard intent node.did_details node.did_service it with
        | some g =>
          rw [hg] at hn
          refine ih _ _ _ ?_ n hn
          intro m hm
          rcases List.mem_append.mp hm with hm | hm
          · exact hgk m hm
          · rw [List.mem_singleton.mp hm]
            exact guardChild_transcript node depth g
        | none =>
          rw [hg] at hn
          exact ih _ _ _ hgk n hn

theorem execFold_kids_transcript (backend : Backend) (u : String) (intent : Intent)
    (node : Node) (depth : Nat) :
    ∀ (items : List PlanItem) (acc cs : List Node),
      (∀ n ∈ acc, node.transcript <+: n.transcript) →
      execFold backend u intent node depth items acc = .ok (.kids cs) →
      ∀ n ∈ cs, node.transcript <+: n.transcript := by
  intro items
  induction items with
  | nil =>
    intro acc cs hacc h n hn
    simp only [execFold, Except.ok.injEq, StepOut.kids.injEq] at h
    subst h
    exact hacc n hn
  | cons it rest ih =>
    intro acc cs hacc h n hn
    cases hf : finalOf it with
    | some f =>
      simp only [execFold, hf] at h
      exact absurd h (by simp)
    | none =>
      simp only [execFold, hf, bind, Except.bind] at h
      cases hei : execItem backend u intent node depth it with
      | error e => rw [hei] at h; simp at h
      | ok o =>
        rw [hei] at h
        cases o with
        | child c2 =>
          refine ih (acc ++ [c2]) cs ?_ h n hn
          intro m hm
          rcases List.mem_append.mp hm with hm | hm
          · exact hacc m hm
          · rw [List.mem_singleton.mp hm]
            exact execItem_child_transcript backend u intent node depth it c2 hei
        | skip => exact ih acc cs hacc h n hn

/-- C9: during a round, every child a branch spawns (a guard-note branch or a
tool-execution branch) carries a fresh transcript that extends the parent's:
the parent's transcript is a prefix of every child's.  In this pure model
parents are never mutated and siblings share no state by construction. -/
theorem transcript_append_only (backend : Backend) (u : String) (intent : Intent)
    (k : Nat) (node : Node) (depth : Nat) (pout : PlannerOut) (cs : List Node)
    (h : processNode backend u intent k node depth pout = .ok (.kids cs)) :
    ∀ c ∈ cs, node.transcript <+: c.transcript := by
  simp only [processNode] at h
  split at h
  · simp only [Except.ok.injEq, StepOut.kids.injEq] at h
    subst h
    intro c hc
    simp at hc
  · split at h
    · rename_i hpair hemp
      simp only [Except.ok.injEq, StepOut.kids.injEq] at h
      subst h
      exact filterPlansAux_guardKids_transcript intent node depth _ _ _ _ (by simp)
    · exact execFold_kids_transcript backend u intent node depth _ _ cs
        (filterPlansAux_guardKids_transcript intent node depth _ _ _ _ (by simp)) h

/-- Witness for C9 at a concrete expansion: an `ask_user` candidate spawns a
child whose transcript extends the root's. -/
theorem transcript_append_only_witness :
    processNode emptyNoServiceBackend "hi" .status 3 rootNode 1 (.arr [.askUser "which?"]) =
      .ok (.kids [execAsk rootNode 1 "which?"]) ∧
    rootNode.transcript <+: (execAsk rootNode 1 "which?").transcript :=
  ⟨rfl, transcript_append_only emptyNoServiceBackend "hi" .status 3 rootNode 1
    (.arr [.askUser "which?"]) [execAsk rootNode 1 "which?"] rfl _ (by simp)⟩

/-! ## C1 — guard soundness -/

theorem finalOf_eq_some (it : PlanItem) (f : String) (h : finalOf it = some f) :
    it = .finish f := by
  cases it <;> simp_all [finalOf]

theorem finishGuard_none_flags (intent : Intent) (dd ds : Bool) (f : String)
    (h : finishGuard intent dd ds (.finish f) = none) :
    (intent = .action → ds = true) ∧ (intent = .status → dd = true) := by
  cases intent <;> cases ds <;> cases dd <;> simp_all [finishGuard]

theorem filterPlansAux_filtered_guard (intent : Intent) (node : Node) (depth : Nat) :
    ∀ (plans seen : List PlanItem) (gk : List Node) (fl : List PlanItem),
      (∀ it ∈ fl, finishGuard intent node.did_details node.did_service it = none) →
      ∀ it ∈ (filterPlansAux intent node depth plans seen gk fl).2,
        finishGuard intent node.did_details node.did_service it = none := by
  intro plans
  induction plans with
  | nil => intro seen gk fl hfl it hit; exact hfl it hit
  | cons p rest ih =>
    intro seen gk fl hfl it hit
    simp only [filterPlansAux] at hit
    by_cases h1 : isInvalidItem p = true
    · rw [if_pos h1] at hit
      exact ih seen gk fl hfl it hit
    · rw [if_neg h1] at hit
      by_cases h2 : seen.contains p = true
      · rw [if_pos h2] at hit
        exact ih seen gk fl hfl it hit
      · rw [if_neg h2] at hit
        cases hg : finishGuard intent node.did_details node.did_service p with
        | some g =>
          rw [hg] at hit
          exact ih _ _ _ hfl it hit
        | none =>
          rw [hg] at hit
          refine ih _ _ _ ?_ it hit
          intro q hq
          rcases List.mem_append.mp hq with hq | hq
          · exact hfl q hq
          · rw [List.mem_singleton.mp hq]
            exact hg

theorem execFold_finished (backend : Backend) (u : String) (intent : Intent)
    (node : Node) (depth : Nat) :
    ∀ (items : List PlanItem) (acc : List Node) (t : String) (n : Node),
      execFold backend u intent node depth items acc = .ok (.finished t n) →
      n = node ∧ ∃ f, PlanItem.finish f ∈ items := by
  intro items
  induction items with
  | nil =>
    intro acc t n h
    simp [execFold] at h
  | cons it rest ih =>
    intro acc t n h
    cases hf : finalOf it with
    | some f =>
      simp only [execFold, hf, Except.ok.injEq, StepOut.finished.injEq] at h
      exact ⟨h.2.symm, f, by rw [finalOf_eq_some it f hf]; exact List.mem_cons_self _ _⟩
    | none =>
      simp only [execFold, hf, bind, Except.bind] at h
      cases hei : execItem backend u intent node depth it with
      | error e => rw [hei] at h; simp at h
      | ok o =>
        rw [hei] at h
        cases o with
        | child c2 =>
          obtain ⟨hn, f, hmem⟩ := ih (acc ++ [c2]) t n h
          exact ⟨hn, f, List.mem_cons_of_mem _ hmem⟩
        | skip =>
          obtain ⟨hn, f, hmem⟩ := ih acc t n h
          exact ⟨hn, f, List.mem_cons_of_mem _ hmem⟩

theorem processNode_finished (backend : Backend) (u : String) (intent : Intent)
    (k : Nat) (node : Node) (depth : Nat) (pout : PlannerOut) (t : String) (n : Node)
    (h : processNode backend u intent k node depth pout = .ok (.finished t n)) :
    n = node ∧ (intent = .action → node.did_service = true) ∧
      (intent = .status → node.did_details = true) := by
  simp only [processNode] at h
  split at h
  · simp at h
  · split at h
    · simp at h
    · obtain ⟨hn, f, hmem⟩ := execFold_finished backend u intent node depth _ _ t n h
      have hfl : PlanItem.finish f ∈ (filterPlans intent node depth (plansOfOut pout) k).2 :=
        (mem_stableSortBy _ _ _).mp (List.mem_of_mem_take hmem)
      have hg2 : ∀ it ∈ (filterPlans intent node depth (plansOfOut pout) k).2,
          finishGuard intent node.did_details node.did_service it = none :=
        filterPlansAux_filtered_guard intent node depth _ _ _ _ (by simp)
      exact ⟨hn, finishGuard_none_flags intent node.did_details node.did_service f
        (hg2 _ hfl)⟩

theorem doRound_inl (backend : Backend) (planner : Nat → PlannerOut) (u : String)
    (intent : Intent) (k depth : Nat) :
    ∀ (frontier : List Node) (pc : Nat) (acc : List Node) (t : String) (n : Node),
      doRound backend planner u intent k depth frontier pc acc = .ok (.inl (t, n)) →
      (intent = .action → n.did_service = true) ∧
        (intent = .status → n.did_details = true) := by
  intro frontier
  induction frontier with
  | nil =>
    intro pc acc t n h
    simp [doRound] at h
  | cons node rest ih =>
    intro pc acc t n h
    simp only [doRound, bind, Except.bind] at h
    cases hp : processNode backend u intent k node depth (planner pc) with
    | error e => rw [hp] at h; simp at h
    | ok so =>
      rw [hp] at h
      cases so with
      | finished t2 n2 =>
        simp only [Except.ok.injEq, Sum.inl.injEq, Prod.mk.injEq] at h
        obtain ⟨hn0, hflags⟩ := processNode_finished backend u intent k node depth
          (planner pc) t2 n2 hp
        rw [← h.2, hn0]
        exact hflags
      | kids cs => exact ih (pc + 1) (acc ++ cs) t n h

theorem guardSat_flags (intent : Intent) (n : Node) (h : guardSat intent n = true) :
    (intent = .action → n.did_service = true) ∧ (intent = .status → n.did_details = true) := by
  cases intent <;> simp [guardSat] at h <;> simp [h]

theorem probeLoop_some (planner : Nat → PlannerOut) (intent : Intent) :
    ∀ (fr : List Node) (pc pc' : Nat) (t : String) (n : Node),
      probeLoop planner intent fr pc = (some (t, n), pc') →
      guardSat intent n = true := by
  intro fr
  induction fr with
  | nil =>
    intro pc pc' t n h
    simp [probeLoop] at h
  | cons nd rest ih =>
    intro pc pc' t n h
    simp only [probeLoop] at h
    by_cases hg : guardSat intent nd = true
    · rw [if_pos hg] at h
      split at h
      · split at h
        · exact ih _ _ _ _ h
        · simp only [Prod.mk.injEq, Option.some.injEq] at h
          rw [← h.1.2]
          exact hg
      · exact ih _ _ _ _ h
    · rw [if_neg hg] at h
      exact ih _ _ _ _ h

theorem fallbackResultE_flags (u : String) (fr : List Node) (r : AgentResult)
    (h : fallbackResultE u fr = .ok r) :
    (∀ t n, r = .fbAction t n → n.did_service = true) ∧
    (∀ t n, r = .fbStatus t n → n.did_details = true) ∧
    (∀ t n, r ≠ .inRound t n) ∧
    (∀ t n, r ≠ .probeHit t n) := by
  cases fr with
  | nil =>
    simp only [fallbackResultE, Except.ok.injEq] at h
    subst h
    simp
  | cons h0 t0 =>
    simp only [fallbackResultE, bind, Except.bind] at h
    cases hbest : pyMaxByKey (fun n => scoreNodeE (inferIntent u) n u) h0 t0 with
    | error e => rw [hbest] at h; cases h
    | ok best =>
      rw [hbest] at h
      have h2 : (if inferIntent u = Intent.action && best.did_service then
            Except.ok (AgentResult.fbAction (fbActionText best) best)
          else if inferIntent u = Intent.status && best.did_details then
            Except.ok (AgentResult.fbStatus (fbStatusText best) best)
          else Except.ok AgentResult.notSure) = Except.ok r := h
      split at h2
      · rename_i hcond
        simp only [Bool.and_eq_true, decide_eq_true_eq] at hcond
        simp only [Except.ok.injEq] at h2
        subst h2
        refine ⟨?_, by simp, by simp, by simp⟩
        intro t n heq
        injection heq with _ hn
        rw [← hn]
        exact hcond.2
      · split at h2
        · rename_i hcond2
          simp only [Bool.and_eq_true, decide_eq_true_eq] at hcond2
          simp only [Except.ok.injEq] at h2
          subst h2
          refine ⟨by simp, ?_, by simp, by simp⟩
          intro t n heq
          injection heq with _ hn
          rw [← hn]
          exact hcond2.2
        · simp only [Except.ok.injEq] at h2
          subst h2
          exact ⟨by simp, by simp, by simp, by simp⟩

theorem totLoop_sound (backend : Backend) (planner : Nat → PlannerOut) (u : String)
    (intent : Intent) (beam k : Nat) :
    ∀ (fuel depth : Nat) (frontier : List Node) (pc : Nat) (out : LoopOut),
      totLoop backend planner u intent beam k fuel depth frontier pc = .ok out →
      (∀ t n, out = .inRound t n →
        (intent = .action → n.did_service = true) ∧
          (intent = .status → n.did_details = true)) ∧
      (∀ t n, out = .probeHit t n → guardSat intent n = true) := by
  intro fuel
  induction fuel with
  | zero =>
    intro depth frontier pc out h
    simp only [totLoop, Except.ok.injEq] at h
    subst h
    simp
  | succ fuel ih =>
    intro depth frontier pc out h
    simp only [totLoop] at h
    split at h
    · exact absurd h (by simp)
    · rename_i t0 n0 heq
      simp only [Except.ok.injEq] at h
      subst h
      have hfl := doRound_inl backend planner u intent k depth frontier pc [] t0 n0 heq
      constructor
      · intro t n hout
        injection hout with ht hn
        rw [← hn]
        exact hfl
      · intro t n hout
        cases hout
    · rename_i cands pc1 heq
      split at h
      · simp only [Except.ok.injEq] at h
        subst h
        simp
      · split at h
        · exact absurd h (by simp)
        · split at h
          · rename_i t0 n0 snd0 hpl
            simp only [Except.ok.injEq] at h
            subst h
            constructor
            · intro t n hout
              cases hout
            · intro t n hout
              injection hout with ht hn
              rw [← hn]
              exact probeLoop_some planner intent _ _ _ _ _ hpl
          · exact ih _ _ _ _ h

/-- C1: guard soundness.  For every completed `call_agent` run, an answer
returned from an accepted in-round finish or from the early finish probe
comes from a branch whose lineage satisfies the intent's guard
(`did_service` for action, `did_details` for status), and the
depth-exhausted fallback synthesizes an action (resp. status) sentence only
from a best branch with `did_service` (resp. `did_details`). -/
theorem guard_soundness (cfg : Config) (planner : Nat → PlannerOut) (backend : Backend)
    (u : String) (r : AgentResult) (h : callAgentRun cfg planner backend u = .ok r) :
    (∀ t n, r = .inRound t n →
      (inferIntent u = .action → n.did_service = true) ∧
      (inferIntent u = .status → n.did_details = true)) ∧
    (∀ t n, r = .probeHit t n →
      (inferIntent u = .action → n.did_service = true) ∧
      (inferIntent u = .status → n.did_details = true)) ∧
    (∀ t n, r = .fbAction t n → n.did_service = true) ∧
    (∀ t n, r = .fbStatus t n → n.did_details = true) := by
  unfold callAgentRun at h
  split at h
  · exact absurd h (by simp)
  · rename_i t0 n0 hl
    have hs := totLoop_sound backend planner u (inferIntent u) cfg.beamSize cfg.kPerNode
      cfg.maxDepth 1 [rootNode] 0 (LoopOut.inRound t0 n0) hl
    simp only [Except.ok.injEq] at h
    subst h
    refine ⟨?_, by simp, by simp, by simp⟩
    intro t n heq
    injection heq with ht hn
    rw [← hn]
    exact hs.1 t0 n0 rfl
  · rename_i t0 n0 hl
    have hs := totLoop_sound backend planner u (inferIntent u) cfg.beamSize cfg.kPerNode
      cfg.maxDepth 1 [rootNode] 0 (LoopOut.probeHit t0 n0) hl
    simp only [Except.ok.injEq] at h
    subst h
    refine ⟨by simp, ?_, by simp, by simp⟩
    intro t n heq
    injection heq with ht hn
    rw [← hn]
    exact guardSat_flags _ _ (hs.2 t0 n0 rfl)
  · rename_i fr hl
    have hfb := fallbackResultE_flags u fr r h
    exact ⟨fun t n heq => absurd heq (hfb.2.2.1 t n),
      fun t n heq => absurd heq (hfb.2.2.2 t n),
      hfb.1, hfb.2.1⟩

/-- Witness for C1: a concrete run (service call proposed and executed, then
the probe finishes) returns through the probe on a branch with
`did_service = true`. -/
theorem guard_soundness_witness :
    callAgentRun {} kitchenPlanner kitchenBackend "turn on the kitchen lights" =
      .ok (.probeHit "Kitchen Lights turned on." kitchenNode) ∧
    kitchenNode.did_service = true :=
  ⟨rfl,
    ((guard_soundness {} kitchenPlanner kitchenBackend "turn on the kitchen lights"
        (.probeHit "Kitchen Lights turned on." kitchenNode) rfl).2.1
      "Kitchen Lights turned on." kitchenNode rfl).1 rfl⟩

/-! ## C4 — timeout resilience -/

theorem processNode_timeout (backend : Backend) (u : String) (intent : Intent)
    (k : Nat) (node : Node) (depth : Nat) :
    processNode backend u intent k node depth .timeout =
      .ok (.kids (if k = 0 then [] else [execAsk node depth "Which device exactly?"])) := by
  cases k with
  | zero => rfl
  | succ k2 =>
    rw [if_neg (Nat.succ_ne_zero k2)]
    simp [processNode, plansOfOut, filterPlans, filterPlansAux, isInvalidItem, finishGuard,
      stableSortBy, insertBefore, execFold, finalOf, execItem, List.take_succ_cons,
      bind, Except.bind]

theorem doRound_timeout (backend : Backend) (planner : Nat → PlannerOut) (u : String)
    (intent : Intent) (k depth : Nat) (hpl : ∀ i, planner i = .timeout) :
    ∀ (frontier : List Node) (pc : Nat) (acc : List Node),
      doRound backend planner u intent k depth frontier pc acc =
        .ok (.inr (acc ++ (if k = 0 then []
          else frontier.map (fun nd => execAsk nd depth "Which device exactly?")),
          pc + frontier.length)) := by
  intro frontier
  induction frontier with
  | nil =>
    intro pc acc
    simp [doRound]
  | cons nd rest ih =>
    intro pc acc
    have hstep : processNode backend u intent k nd depth (planner pc) =
        .ok (.kids (if k = 0 then [] else [execAsk nd depth "Which device exactly?"])) := by
      rw [hpl pc]
      exact processNode_timeout backend u intent k nd depth
    simp only [doRound, hstep, bind, Except.bind]
    rw [ih]
    cases k with
    | zero => simp [Nat.add_assoc, Nat.add_comm 1 rest.length]
    | succ k2 => simp [Nat.add_assoc, Nat.add_comm 1 rest.length]

theorem execAsk_flags (nd : Node) (depth : Nat) (msg : String) :
    (execAsk nd depth msg).did_service = nd.did_service ∧
      (execAsk nd depth msg).did_details = nd.did_details := ⟨rfl, rfl⟩

theorem execAsk_obs (nd : Node) (depth : Nat) (msg : String) :
    (execAsk nd depth msg).last_obs ≠ none := by
  intro hcon
  exact Option.noConfusion hcon

theorem scoreNodeE_ok_of_obs (intent : Intent) (n : Node) (u : String)
    (h : n.last_obs ≠ none) : ∃ q, scoreNodeE intent n u = .ok q := by
  unfold scoreNodeE
  by_cases hi : intent = .action
  · rw [if_pos hi]
    cases ho : n.last_obs with
    | none => exact absurd ho h
    | some o => exact ⟨_, rfl⟩
  · rw [if_neg hi]
    exact ⟨_, rfl⟩

theorem scoreRound_snd (intent : Intent) (u : String) :
    ∀ (pool : List Node) (scored : List (ℚ × Node)),
      scoreRound intent u pool = .ok scored → scored.map (·.2) = pool := by
  intro pool
  induction pool with
  | nil =>
    intro scored h
    simp only [scoreRound, Except.ok.injEq] at h
    rw [← h]
    rfl
  | cons n rest ih =>
    intro scored h
    simp only [scoreRound, bind, Except.bind] at h
    cases hs : scoreNodeE intent n u with
    | error e => rw [hs] at h; cases h
    | ok q =>
      rw [hs] at h
      cases ht : scoreRound intent u rest with
      | error e => rw [ht] at h; cases h
      | ok tail =>
        rw [ht] at h
        simp only [Except.ok.injEq] at h
        rw [← h]
        simp [ih tail ht]

theorem scoreRound_ok_of_obs (intent : Intent) (u : String) :
    ∀ (pool : List Node), (∀ nd ∈ pool, nd.last_obs ≠ none) →
      ∃ scored, scoreRound intent u pool = .ok scored := by
  intro pool
  induction pool with
  | nil => intro _; exact ⟨[], rfl⟩
  | cons n rest ih =>
    intro hall
    obtain ⟨q, hq⟩ := scoreNodeE_ok_of_obs intent n u (hall n (List.mem_cons_self n rest))
    obtain ⟨tail, htail⟩ := ih (fun m hm => hall m (List.mem_cons_of_mem n hm))
    exact ⟨(q, n) :: tail, by simp only [scoreRound, bind, Except.bind, hq, htail]⟩

theorem pruneFrontierE_ok (intent : Intent) (u : String) (beam : Nat) (pool : List Node)
    (hobs : ∀ nd ∈ pool, nd.last_obs ≠ none) :
    ∃ fr, pruneFrontierE intent u beam pool = .ok fr ∧
      (∀ nd ∈ fr, nd ∈ pool) ∧ (pool ≠ [] → fr ≠ []) := by
  obtain ⟨scored, hsc⟩ := scoreRound_ok_of_obs intent u pool hobs
  have hsnd := scoreRound_snd intent u pool scored hsc
  refine ⟨((stableSortBy (fun a b => decide (b.1 ≤ a.1)) scored).take (max 1 beam)).map (·.2),
    ?_, ?_, ?_⟩
  · simp only [pruneFrontierE, bind, Except.bind, hsc]
  · intro nd hnd
    obtain ⟨p, hp, hpe⟩ := List.mem_map.mp hnd
    have hp2 : p ∈ scored := (mem_stableSortBy _ _ _).mp (List.mem_of_mem_take hp)
    rw [← hsnd, ← hpe]
    exact List.mem_map_of_mem _ hp2
  · intro hne hcon
    have hlen := congrArg List.length hcon
    have hlsc : scored.length = pool.length := by
      rw [← hsnd, List.length_map]
    simp only [List.length_map, List.length_take, List.length_nil] at hlen
    rw [length_stableSortBy, hlsc] at hlen
    have h1 : 1 ≤ max 1 beam := le_max_left 1 beam
    have h2 : 0 < pool.length := List.length_pos.mpr hne
    omega

theorem probeLoop_skip (planner : Nat → PlannerOut) (intent : Intent) :
    ∀ (fr : List Node) (pc : Nat), (∀ nd ∈ fr, guardSat intent nd = false) →
      probeLoop planner intent fr pc = (none, pc) := by
  intro fr
  induction fr with
  | nil => intro pc _; rfl
  | cons nd rest ih =>
    intro pc hg
    simp only [probeLoop]
    rw [if_neg (by simp [hg nd (List.mem_cons_self nd rest)])]
    exact ih pc (fun m hm => hg m (List.mem_cons_of_mem nd hm))

theorem totLoop_timeout (backend : Backend) (planner : Nat → PlannerOut) (u : String)
    (intent : Intent) (beam k : Nat) (hpl : ∀ i, planner i = .timeout) (hk : k ≠ 0) :
    ∀ (fuel depth : Nat) (frontier : List Node) (pc : Nat),
      frontier ≠ [] →
      (∀ nd ∈ frontier, nd.did_service = false ∧ nd.did_details = false) →
      (fuel = 0 → ∀ nd ∈ frontier, nd.last_obs ≠ none) →
      ∃ fr', totLoop backend planner u intent beam k fuel depth frontier pc =
          .ok (.exhausted fr') ∧
        fr' ≠ [] ∧ (∀ nd ∈ fr', nd.did_service = false ∧ nd.did_details = false) ∧
        (∀ nd ∈ fr', nd.last_obs ≠ none) := by
  intro fuel
  induction fuel with
  | zero =>
    intro depth frontier pc hne hflags hobs
    exact ⟨frontier, rfl, hne, hflags, hobs rfl⟩
  | succ fuel ih =>
    intro depth frontier pc hne hflags hobs
    have hdr := doRound_timeout backend planner u intent k depth hpl frontier pc []
    rw [if_neg hk] at hdr
    simp only [List.nil_append] at hdr
    have hmapne : frontier.map (fun nd => execAsk nd depth "Which device exactly?") ≠ [] := by
      simp [hne]
    have hkidsflags : ∀ nd ∈ frontier.map
        (fun nd => execAsk nd depth "Which device exactly?"),
        nd.did_service = false ∧ nd.did_details = false := by
      intro nd hnd
      obtain ⟨nd0, hnd0, rfl⟩ := List.mem_map.mp hnd
      obtain ⟨hs, hd⟩ := hflags nd0 hnd0
      exact ⟨by rw [(execAsk_flags nd0 depth _).1, hs],
        by rw [(execAsk_flags nd0 depth _).2, hd]⟩
    have hkidsobs : ∀ nd ∈ frontier.map
        (fun nd => execAsk nd depth "Which device exactly?"),
        nd.last_obs ≠ none := by
      intro nd hnd
      obtain ⟨nd0, hnd0, rfl⟩ := List.mem_map.mp hnd
      exact execAsk_obs nd0 depth _
    obtain ⟨newFr, hpr, hmem, hnefn⟩ := pruneFrontierE_ok intent u beam
      (frontier.map (fun nd => execAsk nd depth "Which device exactly?")) hkidsobs
    have hfrflags : ∀ nd ∈ newFr, nd.did_service = false ∧ nd.did_details = false :=
      fun nd hnd => hkidsflags nd (hmem nd hnd)
    have hfrobs : ∀ nd ∈ newFr, nd.last_obs ≠ none :=
      fun nd hnd => hkidsobs nd (hmem nd hnd)
    have hgs : ∀ nd ∈ newFr, guardSat intent nd = false := by
      intro nd hnd
      obtain ⟨hs, hd⟩ := hfrflags nd hnd
      cases intent <;> simp [guardSat, hs, hd]
    obtain ⟨fr', hrec, hne', hflags', hobs'⟩ := ih (depth + 1) newFr
      (pc + frontier.length) (hnefn hmapne) hfrflags (fun _ => hfrobs)
    refine ⟨fr', ?_, hne', hflags', hobs'⟩
    simp only [totLoop, hdr]
    rw [if_neg (by simp [List.isEmpty_iff, hmapne])]
    simp only [hpr]
    rw [probeLoop_skip planner intent _ _ hgs]
    exact hrec

theorem pyMaxAux_ok (key : Node → Except Unit ℚ) :
    ∀ (ys : List Node) (best : Node) (kbest : ℚ),
      (∀ n ∈ ys, ∃ q, key n = .ok q) →
      ∃ b, pyMaxAux key best kbest ys = .ok b ∧ (b = best ∨ b ∈ ys) := by
  intro ys
  induction ys with
  | nil => intro best kbest _; exact ⟨best, rfl, Or.inl rfl⟩
  | cons y ys ih =>
    intro best kbest hall
    obtain ⟨q, hq⟩ := hall y (List.mem_cons_self y ys)
    have hall2 : ∀ n ∈ ys, ∃ q, key n = .ok q :=
      fun m hm => hall m (List.mem_cons_of_mem y hm)
    by_cases hlt : kbest < q
    · obtain ⟨b, hb, hbmem⟩ := ih y q hall2
      refine ⟨b, ?_, ?_⟩
      · simp only [pyMaxAux, bind, Except.bind, hq]
        rw [if_pos hlt]
        exact hb
      · cases hbmem with
        | inl he => exact Or.inr (by rw [he]; exact List.mem_cons_self y ys)
        | inr hm => exact Or.inr (List.mem_cons_of_mem y hm)
    · obtain ⟨b, hb, hbmem⟩ := ih best kbest hall2
      refine ⟨b, ?_, ?_⟩
      · simp only [pyMaxAux, bind, Except.bind, hq]
        rw [if_neg hlt]
        exact hb
      · cases hbmem with
        | inl he => exact Or.inl he
        | inr hm => exact Or.inr (List.mem_cons_of_mem y hm)

theorem fallbackResultE_noflags (u : String) (fr : List Node) (hne : fr ≠ [])
    (hflags : ∀ nd ∈ fr, nd.did_service = false ∧ nd.did_details = false)
    (hobs : ∀ nd ∈ fr, nd.last_obs ≠ none) :
    fallbackResultE u fr = .ok .notSure := by
  cases fr with
  | nil => exact absurd rfl hne
  | cons h0 t0 =>
    obtain ⟨q0, hq0⟩ := scoreNodeE_ok_of_obs (inferIntent u) h0 u
      (hobs h0 (List.mem_cons_self h0 t0))
    obtain ⟨b, hb, hbor⟩ := pyMaxAux_ok (fun n => scoreNodeE (inferIntent u) n u) t0 h0 q0
      (fun m hm => scoreNodeE_ok_of_obs (inferIntent u) m u
        (hobs m (List.mem_cons_of_mem h0 hm)))
    have hbmem : b ∈ h0 :: t0 := by
      cases hbor with
      | inl he => rw [he]; exact List.mem_cons_self h0 t0
      | inr hm => exact List.mem_cons_of_mem h0 hm
    obtain ⟨hs, hd⟩ := hflags b hbmem
    have hmax : pyMaxByKey (fun n => scoreNodeE (inferIntent u) n u) h0 t0 = .ok b := by
      simp only [pyMaxByKey, bind, Except.bind, hq0]
      exact hb
    simp only [fallbackResultE, bind, Except.bind, hmax]
    rw [if_neg (by simp [hs]), if_neg (by simp [hd])]

/-- C4: timeout resilience.  If every planner call times out, `call_agent`
(run with at least one round and at least one candidate slot per branch)
still terminates and returns the non-empty generic clarification string,
never an exception; each timeout is recovered by substituting the single
low-priority `ask_user` candidate for that branch's round. -/
theorem timeout_resilience (cfg : Config) (planner : Nat → PlannerOut) (backend : Backend)
    (u : String) (hpl : ∀ i, planner i = .timeout)
    (hk : cfg.kPerNode ≠ 0) (hd : cfg.maxDepth ≠ 0) :
    callAgentModel cfg planner backend u = .ok notSureText ∧
    notSureText ≠ "" ∧
    plansOfOut .timeout = [.askUser "Which device exactly?"] := by
  refine ⟨?_, by decide, rfl⟩
  unfold callAgentModel callAgentRun
  obtain ⟨fr', hrun, hne, hflags, hobs⟩ := totLoop_timeout backend planner u (inferIntent u)
    cfg.beamSize cfg.kPerNode hpl hk cfg.maxDepth 1 [rootNode] 0 (by simp)
    (by intro nd hnd; rw [List.mem_singleton.mp hnd]; exact ⟨rfl, rfl⟩)
    (fun h0 => absurd h0 hd)
  simp only [hrun]
  rw [fallbackResultE_noflags u fr' hne hflags hobs]
  rfl

/-- Witness for C4: the always-timeout planner against an empty backend, at
the default configuration, yields the clarification answer. -/
theorem timeout_resilience_witness :
    callAgentModel {} timeoutPlanner emptyNoServiceBackend "turn on the lamp" =
      .ok notSureText ∧ notSureText ≠ "" :=
  ⟨(timeout_resilience {} timeoutPlanner emptyNoServiceBackend "turn on the lamp"
      (fun _ => rfl) (by decide) (by decide)).1,
   (timeout_resilience {} timeoutPlanner emptyNoServiceBackend "turn on the lamp"
      (fun _ => rfl) (by decide) (by decide)).2.1⟩

/-! ## C3 — backend failure propagation -/

/-- C3 counterexample: a backend exception during a details read propagates
out of the whole `call_agent` invocation (there is no try/except around the
tool calls), so a backend failure is not contained to the candidate being
processed and no error annotation is recorded on the branch. -/
theorem backend_failure_escapes_counterexample :
    callAgentModel {} frontDoorPlanner failingDetailsBackend "is the front door locked" =
      .error () := by
  rfl

/-- C3 (amended): a backend exception aborts the whole search.  Whenever the
planner's first proposal is a details read on which the backend raises, the
exception propagates out of `call_agent` as an error; the branch pool is
lost rather than annotated. -/
theorem backend_failure_propagates (cfg : Config) (planner : Nat → PlannerOut)
    (backend : Backend) (u : String) (ids : List String)
    (hpl : planner 0 = .arr [.getDetails ids])
    (hbk : backend.getDetails ids = .error ())
    (hd : 1 ≤ cfg.maxDepth) (hk : 1 ≤ cfg.kPerNode) :
    callAgentRun cfg planner backend u = .error () := by
  obtain ⟨d, hd2⟩ : ∃ d, cfg.maxDepth = d + 1 := ⟨cfg.maxDepth - 1, by omega⟩
  obtain ⟨k2, hk2⟩ : ∃ k2, cfg.kPerNode = k2 + 1 := ⟨cfg.kPerNode - 1, by omega⟩
  have hpn : processNode backend u (inferIntent u) cfg.kPerNode rootNode 1 (planner 0) =
      .error () := by
    rw [hpl, hk2]
    simp [processNode, plansOfOut, filterPlans, filterPlansAux, isInvalidItem, finishGuard,
      stableSortBy, insertBefore, execFold, finalOf, execItem, execGetDetails,
      List.take_succ_cons, bind, Except.bind, hbk, Except.map]
  have hdr : doRound backend planner u (inferIntent u) cfg.kPerNode 1 [rootNode] 0 [] =
      .error () := by
    simp [doRound, hpn, bind, Except.bind]
  unfold callAgentRun
  rw [hd2]
  simp [totLoop, hdr]

/-- Witness for the amended C3 theorem at concrete oracles. -/
theorem backend_failure_propagates_witness :
    callAgentRun {} frontDoorPlanner failingDetailsBackend "hello" = .error () :=
  backend_failure_propagates {} frontDoorPlanner failingDetailsBackend "hello"
    ["lock.front_door"] rfl rfl (by decide) (by decide)

/-! ## C10 — `get_entities_by_domain` grouping -/

theorem insertBefore_congr (before before2 : α → α → Bool) (x : α) :
    ∀ (s : List α), (∀ y ∈ s, before x y = before2 x y) →
      insertBefore before x s = insertBefore before2 x s := by
  intro s
  induction s with
  | nil => intro _; rfl
  | cons z zs ih =>
    intro ha
    simp only [insertBefore]
    rw [ha z (List.mem_cons_self z zs)]
    by_cases h2 : before2 x z = true
    · rw [if_pos h2, if_pos h2]
    · rw [if_neg h2, if_neg h2, ih (fun y hy => ha y (List.mem_cons_of_mem _ hy))]

theorem insertBefore_append_agree (before before2 : α → α → Bool) (x : α) :
    ∀ (a b : List α), (∀ y ∈ a, before x y = before2 x y) →
      (∀ y ∈ b, before x y = true) →
      insertBefore before x (a ++ b) = insertBefore before2 x a ++ b := by
  intro a
  induction a with
  | nil =>
    intro b _ hb
    cases b with
    | nil => rfl
    | cons y ys =>
      simp only [List.nil_append, insertBefore]
      rw [if_pos (hb y (List.mem_cons_self y ys))]
      rfl
  | cons z zs ih =>
    intro b ha hb
    simp only [List.cons_append, insertBefore, List.append_eq]
    rw [ha z (List.mem_cons_self z zs)]
    by_cases h2 : before2 x z = true
    · rw [if_pos h2, if_pos h2]
      rfl
    · rw [if_neg h2, if_neg h2, ih b (fun y hy => ha y (List.mem_cons_of_mem _ hy)) hb]
      rfl

theorem insertBefore_append_skip (before : α → α → Bool) (x : α) :
    ∀ (a b : List α), (∀ y ∈ a, before x y = false) →
      insertBefore before x (a ++ b) = a ++ insertBefore before x b := by
  intro a
  induction a with
  | nil => intro b _; rfl
  | cons z zs ih =>
    intro b ha
    simp only [List.cons_append, insertBefore, List.append_eq]
    rw [ha z (List.mem_cons_self z zs)]
    simp only [Bool.false_eq_true, if_false]
    rw [ih b (fun y hy => ha y (List.mem_cons_of_mem _ hy))]

theorem haKeyLe_rank_lt (d : String) (a b : Entity) (h : haRank d a < haRank d b) :
    haKeyLe d a b = true := by
  unfold haKeyLe
  rw [if_pos h]

theorem haKeyLe_rank_gt (d : String) (a b : Entity) (h : haRank d b < haRank d a) :
    haKeyLe d a b = false := by
  unfold haKeyLe
  rw [if_neg (by omega), if_pos h]

theorem haKeyLe_rank_eq (d : String) (a b : Entity) (h : haRank d a = haRank d b) :
    haKeyLe d a b = charListLe (nameKey a) (nameKey b) := by
  unfold haKeyLe
  rw [if_neg (by omega), if_neg (by omega)]

theorem mem_sortFilter_rank (d : String) (r : Nat) (xs : List Entity) (y : Entity)
    (h : y ∈ stableSortBy (fun a b => charListLe (nameKey a) (nameKey b))
      (xs.filter (fun e => decide (haRank d e = r)))) :
    haRank d y = r := by
  have := List.mem_filter.mp ((mem_stableSortBy _ _ _).mp h)
  exact of_decide_eq_true this.2

theorem sort_haKey_split (d : String) :
    ∀ (l : List Entity), (∀ e ∈ l, haRank d e ≤ 1) →
      stableSortBy (fun a b => haKeyLe d a b) l =
        stableSortBy (fun a b => charListLe (nameKey a) (nameKey b))
          (l.filter (fun e => decide (haRank d e = 0))) ++
        stableSortBy (fun a b => charListLe (nameKey a) (nameKey b))
          (l.filter (fun e => decide (haRank d e = 1))) := by
  intro l
  induction l with
  | nil => intro _; rfl
  | cons x xs ih =>
    intro hranks
    have hxs := fun e he => hranks e (List.mem_cons_of_mem x he)
    have hx := hranks x (List.mem_cons_self x xs)
    simp only [stableSortBy, List.filter_cons]
    rw [ih hxs]
    by_cases h0 : haRank d x = 0
    · rw [if_pos (by simp [h0]), if_neg (by simp [h0])]
      simp only [stableSortBy]
      rw [insertBefore_append_agree (fun a b => haKeyLe d a b)
        (fun a b => charListLe (nameKey a) (nameKey b)) x _ _ ?_ ?_]
      · intro y hy
        exact haKeyLe_rank_eq d x y (by rw [h0, mem_sortFilter_rank d 0 xs y hy])
      · intro y hy
        exact haKeyLe_rank_lt d x y (by rw [h0, mem_sortFilter_rank d 1 xs y hy]; omega)
    · have h1 : haRank d x = 1 := by omega
      rw [if_neg (by simp [h0]), if_pos (by simp [h1])]
      simp only [stableSortBy]
      rw [insertBefore_append_skip (fun a b => haKeyLe d a b) x _ _ ?_]
      · rw [insertBefore_congr (fun a b => haKeyLe d a b)
          (fun a b => charListLe (nameKey a) (nameKey b)) x _ ?_]
        intro y hy
        exact haKeyLe_rank_eq d x y (by rw [h1, mem_sortFilter_rank d 1 xs y hy])
      · intro y hy
        exact haKeyLe_rank_gt d x y (by rw [h1, mem_sortFilter_rank d 0 xs y hy]; omega)

theorem collectEntities_keep (keep : String → Bool) :
    ∀ (states : List HAState) (seen : List String),
      ∀ e ∈ collectEntities keep states seen, keep e.entity_id = true := by
  intro states
  induction states with
  | nil => intro seen e he; simp [collectEntities] at he
  | cons s rest ih =>
    intro seen e he
    simp only [collectEntities] at he
    by_cases h1 : s.entity_id = ""
    · rw [if_pos h1] at he
      exact ih seen e he
    · rw [if_neg h1] at he
      by_cases h2 : (!keep s.entity_id) = true
      · rw [if_pos h2] at he
        exact ih seen e he
      · rw [if_neg h2] at he
        by_cases h3 : seen.contains s.entity_id = true
        · rw [if_pos h3] at he
          exact ih seen e he
        · rw [if_neg h3] at he
          rcases List.mem_cons.mp he with rfl | he
          · simpa using h2
          · exact ih _ e he

theorem collectEntities_congr (keep keep2 : String → Bool) (h : ∀ eid, keep eid = keep2 eid) :
    ∀ (states : List HAState) (seen : List String),
      collectEntities keep states seen = collectEntities keep2 states seen := by
  intro states
  induction states with
  | nil => intro seen; rfl
  | cons s rest ih =>
    intro seen
    simp only [collectEntities, h s.entity_id, ih]

/-- C10 counterexample: the non-empty domain argument `"."` normalizes to the
empty string, so `get_entities_by_domain` returns entities of all domains —
here an entity that neither lies in the requested domain nor in `switch`. -/
theorem ha_listing_counterexample :
    getEntitiesByDomain [⟨"light.a", "A"⟩] "." = [⟨"light.a", "A"⟩] ∧
    ("." : String) ≠ "" ∧
    strStartsWith "light.a" ("." ++ ".") = false ∧
    strStartsWith "light.a" "switch." = false := by
  refine ⟨rfl, by decide, by decide, by decide⟩

/-- C10 (amended): for every domain whose normalization (strip whitespace,
lowercase, strip trailing dots) is non-empty, `get_entities_by_domain`
returns the deduplicated entities of the normalized domain plus those of
`switch`, requested-domain group first and then the remaining switch
entities, each group sorted case-insensitively by display name; a domain
normalizing to `""` (only then) returns the deduplicated entities of all
domains sorted by display name. -/
theorem ha_listing_amended :
    (∀ (states : List HAState) (domain : String), normalizeDomain domain ≠ "" →
      getEntitiesByDomain states domain = haGrouped states (normalizeDomain domain)) ∧
    (∀ (states : List HAState) (domain : String), normalizeDomain domain = "" →
      getEntitiesByDomain states domain =
        sortByNameCF (collectEntities (fun _ => true) states [])) := by
  constructor
  · intro states domain hne
    simp only [getEntitiesByDomain, haGrouped, sortByNameCF]
    rw [if_neg hne]
    rw [collectEntities_congr _
      (fun eid => strStartsWith eid (normalizeDomain domain ++ ".") ||
        strStartsWith eid "switch.")
      (fun eid => by rw [if_neg hne]) states []]
    apply sort_haKey_split
    intro e he
    have hk := collectEntities_keep _ states [] e he
    unfold haRank
    by_cases hs : strStartsWith e.entity_id (normalizeDomain domain ++ ".") = true
    · rw [if_pos hs]
      omega
    · rw [if_neg hs]
      rw [Bool.or_eq_true] at hk
      rcases hk with hk | hk
      · exact absurd hk hs
      · rw [if_pos hk]
  · intro states domain hz
    simp only [getEntitiesByDomain, sortByNameCF]
    rw [if_pos hz]
    rw [collectEntities_congr _ (fun _ => true) (fun eid => by rw [if_pos hz]) states []]

/-- Witness for the amended C10 theorem at a concrete domain and state set. -/
theorem ha_listing_amended_witness :
    (normalizeDomain "light" ≠ "" ∧
      getEntitiesByDomain [⟨"switch.s", "Outlet"⟩, ⟨"light.b", "B"⟩] "light" =
        haGrouped [⟨"switch.s", "Outlet"⟩, ⟨"light.b", "B"⟩] (normalizeDomain "light")) ∧
    (normalizeDomain " " = "" ∧
      getEntitiesByDomain [⟨"light.a", "A"⟩] " " =
        sortByNameCF (collectEntities (fun _ => true) [⟨"light.a", "A"⟩] [])) :=
  ⟨⟨by decide, ha_listing_amended.1 _ "light" (by decide)⟩,
   ⟨by decide, ha_listing_amended.2 _ " " (by decide)⟩⟩

/-! ## C2 — unresolved-entity safety -/

/-- C2: never act on guessed parameters.  (1) When the requested entity id is
absent or unknown and no candidate matches the user text (`resolveEid` yields
`""`), the service-call step executes no service: it is replaced by a
domain-listing observation, leaving `did_service` untouched — the result is
independent of the backend's `serviceCall` endpoint.  (2) When the entity
resolves but the domain or service remains undetermined, the step becomes an
ask-user observation instead of a guessed call.  (3) In particular, a run on
"turn it on" with a planner that always proposes a bare service call and a
backend with no matching entities ends in the clarification answer while the
(always-raising) service endpoint is never invoked. -/
theorem unresolved_entity_safety :
    (∀ (backend : Backend) (u : String) (intent : Intent) (node : Node) (depth : Nat)
        (domArg svcArg eidArg dom : String) (obs1 obs2 : Option Obs)
        (cands ents : List Entity),
      inferDomainStep backend u intent domArg = .ok (dom, obs1) →
      gatherCandidates backend u node.last_obs obs1 dom = .ok (obs2, cands) →
      resolveEid u eidArg cands = "" →
      backend.listByDomain dom = .ok ents →
      execServiceStep backend u intent node depth domArg svcArg eidArg =
        .ok { transcript := node.transcript ++
                ["GUARD:entity_id unclear; listing candidates first.",
                 "ACTION:get_entities_by_domain_tool(" ++ pyReprStr dom ++ ")",
                 "OBS:" ++ jsonObs (summarizeEntities ents u 6)],
              last_obs := some (summarizeEntities ents u 6),
              did_service := node.did_service,
              did_details := node.did_details,
              depth := depth }) ∧
    (∀ (backend : Backend) (u : String) (intent : Intent) (node : Node) (depth : Nat)
        (domArg svcArg eidArg dom : String) (obs1 obs2 : Option Obs)
        (cands : List Entity),
      inferDomainStep backend u intent domArg = .ok (dom, obs1) →
      gatherCandidates backend u node.last_obs obs1 dom = .ok (obs2, cands) →
      resolveEid u eidArg cands ≠ "" →
      (dom = "" ∨ resolveService u svcArg = "") →
      execServiceStep backend u intent node depth domArg svcArg eidArg =
        .ok { transcript := node.transcript ++ ["ASK:Which device and action exactly?"],
              last_obs := some (.ask "Which device and action exactly?"),
              did_service := node.did_service,
              did_details := node.did_details,
              depth := depth }) ∧
    (callAgentModel {} bareServicePlanner emptyNoServiceBackend "turn it on" =
        .ok notSureText ∧
      ∀ d s e, emptyNoServiceBackend.serviceCall d s e = .error ()) := by
  refine ⟨?_, ?_, ?_, fun d s e => rfl⟩
  · intro backend u intent node depth domArg svcArg eidArg dom obs1 obs2 cands ents
      hinfer hgather hres hlist
    simp only [execServiceStep, bind, Except.bind, hinfer, hgather, hres, hlist]
    rfl
  · intro backend u intent node depth domArg svcArg eidArg dom obs1 obs2 cands
      hinfer hgather hres hcond
    simp only [execServiceStep, bind, Except.bind, hinfer, hgather]
    rw [if_neg hres]
    have hc : (dom = "" || resolveService u svcArg = "") = true := by
      rcases hcond with hd | hs
      · simp [hd]
      · simp [hs]
    rw [if_pos hc]
    rfl
  · rfl

/-- Witness for C2: the unresolved case at concrete inputs (empty backend,
bare proposal) and the undetermined-domain/service case on a branch that has
already gathered a candidate. -/
theorem unresolved_entity_safety_witness :
    (inferDomainStep emptyNoServiceBackend "turn it on" .status "" = .ok ("", none) ∧
      gatherCandidates emptyNoServiceBackend "turn it on" rootNode.last_obs none "" =
        .ok (some (.cands [] 0), []) ∧
      resolveEid "turn it on" "" [] = "" ∧
      execServiceStep emptyNoServiceBackend "turn it on" .status rootNode 1 "" "" "" =
        .ok { transcript :=
                ["GUARD:entity_id unclear; listing candidates first.",
                 "ACTION:get_entities_by_domain_tool(" ++ pyReprStr "" ++ ")",
                 "OBS:" ++ jsonObs (summarizeEntities [] "turn it on" 6)],
              last_obs := some (summarizeEntities [] "turn it on" 6),
              did_service := false, did_details := false, depth := 1 }) ∧
    (resolveEid "turn it on" "light.x" [⟨"light.x", "x"⟩] ≠ "" ∧
      execServiceStep emptyNoServiceBackend "turn it on" .status candNode 1 "" "" "light.x" =
        .ok { transcript := ["ASK:Which device and action exactly?"],
              last_obs := some (.ask "Which device and action exactly?"),
              did_service := false, did_details := false, depth := 1 }) := by
  refine ⟨⟨rfl, rfl, rfl, ?_⟩, ⟨by decide, ?_⟩⟩
  · exact unresolved_entity_safety.1 emptyNoServiceBackend "turn it on" .status rootNode 1
      "" "" "" "" none (some (.cands [] 0)) [] [] rfl rfl rfl rfl
  · exact unresolved_entity_safety.2.1 emptyNoServiceBackend "turn it on" .status candNode 1
      "" "" "light.x" "" none none [⟨"light.x", "x"⟩] rfl rfl (by decide) (Or.inl rfl)

/-! ## Instantiation witnesses for the remaining claims -/

/-- Witness for the amended C5 theorem at a concrete scored pool. -/
theorem beam_prune_amended_witness :
    scoreRound .action "turn on" [candNode] =
      .ok [(scoreBase .action candNode "turn on" + (3 / 5 : ℚ), candNode)] ∧
    pruneFrontierE .action "turn on" 2 [candNode] = .ok [candNode] :=
  ⟨rfl, (beam_prune_amended .action "turn on" 2 [candNode]
      [(scoreBase .action candNode "turn on" + (3 / 5 : ℚ), candNode)] rfl).1⟩

/-- Witness for the amended C6 theorem at a concrete node with a present
observation. -/
theorem score_formula_witness :
    candNode.last_obs ≠ none ∧
    scoreNodeE .action candNode "hi" = .ok (specScoreFormula .action candNode "hi") :=
  ⟨by decide, score_formula_amended.1 .action candNode "hi" (fun _ => by decide)⟩

/-- Witness for C7 at a concrete query and candidate list. -/
theorem resolver_witness :
    bestEntityFromCandidates "turn on the kitchen lights"
        [⟨"light.kitchen_lights", "Kitchen Lights"⟩] =
      firstBestEntity "turn on the kitchen lights"
        [⟨"light.kitchen_lights", "Kitchen Lights"⟩] :=
  resolver_deterministic_and_null.1 _ _

end SmartHome
